import Mathlib

/-!
Verification model of the bitcask-style log-structured key-value store
(`project-4-solution/src/engines/kvs.rs`) and its shared-queue thread pool
(`project-4-solution/src/thread_pool/shared_queue.rs`).

Log files are modelled at record granularity: a file is a list of decoded
`Command` records plus a tail marker describing the bytes after the last
complete record (clean end, truncated record, or undecodable garbage).
Byte offsets are recovered from the length of the serde_json encoding of
each record, so `CommandPos` values carry the same `(gen, pos, len)`
numbers as the Rust code computes.
-/

namespace KvsModel

/-- Keys are compared the way Rust orders `String`s: lexicographically, which
for valid Unicode coincides with the codepoint-lexicographic order on the
character list. This instance lifts the (kernel-computable) lexicographic
order on `List Char` through `String.data`, so that concrete states evaluate. -/
instance (priority := 2100) stringKeyLT : LT String :=
  ⟨fun a b => a.data < b.data⟩

instance (priority := 2000) stringKeyOrder : LinearOrder String :=
  LinearOrder.lift' String.data (fun a b h => by cases a; cases b; exact congrArg String.mk h)

/-! ## Sorted association lists

The Rust code keeps the in-memory index in a `crossbeam_skiplist::SkipMap`
(sorted by key, single writer) and per-reader file-handle caches in
`BTreeMap`s. Both are modelled as association lists sorted strictly by key.
-/

section AList

variable {α β : Type} [LinearOrder α]

/-- Lookup in an association list, first match wins (matches `SkipMap::get`
and `BTreeMap::get` on key-sorted data). -/
def aget : List (α × β) → α → Option β
  | [], _ => none
  | (a, b) :: rest, k => if k = a then some b else aget rest k

/-- Sorted insert-or-replace (matches `SkipMap::insert` / `BTreeMap::insert`). -/
def ainsert : List (α × β) → α → β → List (α × β)
  | [], k, v => [(k, v)]
  | (a, b) :: rest, k, v =>
    if k < a then (k, v) :: (a, b) :: rest
    else if k = a then (k, v) :: rest
    else (a, b) :: ainsert rest k v

/-- Remove by key, returning the removed value (matches `SkipMap::remove`). -/
def aremove : List (α × β) → α → List (α × β) × Option β
  | [], _ => ([], none)
  | (a, b) :: rest, k =>
    if k = a then (rest, some b)
    else ((a, b) :: (aremove rest k).1, (aremove rest k).2)

/-- Keys are strictly increasing along the list. -/
def KeysSorted (l : List (α × β)) : Prop :=
  l.Pairwise (fun x y => x.1 < y.1)

instance (l : List (α × β)) : Decidable (KeysSorted l) := by
  unfold KeysSorted; infer_instance

theorem aget_ainsert (l : List (α × β)) (k : α) (v : β) (k' : α) :
    aget (ainsert l k v) k' = if k' = k then some v else aget l k' := by
  induction l with
  | nil => by_cases h : k' = k <;> simp [ainsert, aget, h]
  | cons hd tl ih =>
    obtain ⟨a, b⟩ := hd
    rw [ainsert]
    by_cases hlt : k < a
    · rw [if_pos hlt]
      by_cases h : k' = k <;> simp [aget, h]
    · rw [if_neg hlt]
      by_cases heq : k = a
      · subst heq
        rw [if_pos rfl]
        by_cases h : k' = k <;> simp [aget, h]
      · rw [if_neg heq]
        by_cases h2 : k' = a
        · have hne : k' ≠ k := fun hh => heq (hh.symm.trans h2)
          simp [aget, h2, hne, Ne.symm heq]
        · simp [aget, h2, ih]

theorem aget_eq_none_of_forall_ne (l : List (α × β)) (k : α)
    (h : ∀ e ∈ l, e.1 ≠ k) : aget l k = none := by
  induction l with
  | nil => rfl
  | cons hd tl ih =>
    obtain ⟨a, b⟩ := hd
    have : k ≠ a := fun hh => h (a, b) (List.mem_cons_self _ _) hh.symm
    simp [aget, this, ih (fun e he => h e (List.mem_cons_of_mem _ he))]

theorem aget_mem (l : List (α × β)) (k : α) (v : β)
    (h : aget l k = some v) : (k, v) ∈ l := by
  induction l with
  | nil => simp [aget] at h
  | cons hd tl ih =>
    obtain ⟨a, b⟩ := hd
    by_cases h2 : k = a
    · subst h2
      simp [aget] at h
      simp [h]
    · simp only [aget, if_neg h2] at h
      simp [ih h]

theorem aremove_snd (l : List (α × β)) (k : α) :
    (aremove l k).2 = aget l k := by
  induction l with
  | nil => simp [aremove, aget]
  | cons hd tl ih =>
    obtain ⟨a, b⟩ := hd
    by_cases h : k = a <;> simp [aremove, aget, h, ih]

theorem aremove_fst_sublist (l : List (α × β)) (k : α) :
    (aremove l k).1.Sublist l := by
  induction l with
  | nil => simp [aremove]
  | cons hd tl ih =>
    obtain ⟨a, b⟩ := hd
    by_cases h : k = a
    · simp [aremove, h]
    · rw [aremove, if_neg h]
      exact List.Sublist.cons₂ (a, b) ih

theorem aget_aremove (l : List (α × β)) (k : α)
    (hnd : (l.map Prod.fst).Nodup) (k' : α) :
    aget (aremove l k).1 k' = if k' = k then none else aget l k' := by
  induction l with
  | nil => simp [aremove, aget]
  | cons hd tl ih =>
    obtain ⟨a, b⟩ := hd
    simp only [List.map_cons, List.nodup_cons] at hnd
    by_cases h : k = a
    · rw [aremove, if_pos h]
      by_cases h2 : k' = k
      · rw [if_pos h2]
        refine aget_eq_none_of_forall_ne tl k' (fun e he hek => ?_)
        have hm : e.1 ∈ tl.map Prod.fst := List.mem_map_of_mem Prod.fst he
        rw [hek, h2, h] at hm
        exact hnd.1 hm
      · have h3 : k' ≠ a := fun hh => h2 (hh.trans h.symm)
        rw [if_neg h2]
        simp [aget, h3]
    · rw [aremove, if_neg h]
      by_cases h2 : k' = a
      · have hne : k' ≠ k := fun hh => h (hh.symm.trans h2)
        simp [aget, h2, hne, Ne.symm h]
      · simp [aget, h2, ih hnd.2]

theorem mem_ainsert (l : List (α × β)) (k : α) (v : β) (e : α × β)
    (h : e ∈ ainsert l k v) : e = (k, v) ∨ e ∈ l := by
  induction l with
  | nil => simpa [ainsert] using h
  | cons hd tl ih =>
    obtain ⟨a, b⟩ := hd
    rw [ainsert] at h
    by_cases hlt : k < a
    · rw [if_pos hlt] at h
      rcases List.mem_cons.mp h with h1 | h1
      · exact Or.inl h1
      · exact Or.inr h1
    · rw [if_neg hlt] at h
      by_cases heq : k = a
      · rw [if_pos heq] at h
        rcases List.mem_cons.mp h with h1 | h1
        · exact Or.inl h1
        · exact Or.inr (List.mem_cons_of_mem _ h1)
      · rw [if_neg heq] at h
        rcases List.mem_cons.mp h with h1 | h1
        · exact Or.inr (h1 ▸ List.mem_cons_self _ _)
        · rcases ih h1 with h2 | h2
          · exact Or.inl h2
          · exact Or.inr (List.mem_cons_of_mem _ h2)

theorem mem_aremove_fst (l : List (α × β)) (k : α) (e : α × β)
    (h : e ∈ (aremove l k).1) : e ∈ l :=
  (aremove_fst_sublist l k).mem h

theorem keysSorted_ainsert (l : List (α × β)) (k : α) (v : β)
    (h : KeysSorted l) : KeysSorted (ainsert l k v) := by
  induction l with
  | nil => simp [ainsert, KeysSorted]
  | cons hd tl ih =>
    obtain ⟨a, b⟩ := hd
    rw [KeysSorted, List.pairwise_cons] at h
    by_cases hlt : k < a
    · rw [KeysSorted, ainsert, if_pos hlt, List.pairwise_cons]
      constructor
      · intro e he
        rcases List.mem_cons.mp he with h1 | h1
        · simp [h1, hlt]
        · exact lt_trans hlt (h.1 e h1)
      · rw [List.pairwise_cons]
        exact h
    · by_cases heq : k = a
      · subst heq
        rw [KeysSorted, ainsert, if_neg hlt, if_pos rfl, List.pairwise_cons]
        exact h
      · rw [KeysSorted, ainsert, if_neg hlt, if_neg heq, List.pairwise_cons]
        constructor
        · intro e he
          rcases mem_ainsert tl k v e he with h1 | h1
          · subst h1
            exact lt_of_le_of_ne (not_lt.mp hlt) (Ne.symm heq)
          · exact h.1 e h1
        · exact ih h.2

theorem keysSorted_aremove (l : List (α × β)) (k : α)
    (h : KeysSorted l) : KeysSorted (aremove l k).1 :=
  List.Pairwise.sublist (aremove_fst_sublist l k) h

theorem keysSorted_nodup (l : List (α × β)) (h : KeysSorted l) :
    (l.map Prod.fst).Nodup := by
  induction l with
  | nil => simp
  | cons hd tl ih =>
    rw [KeysSorted, List.pairwise_cons] at h
    simp only [List.map_cons, List.nodup_cons]
    refine ⟨fun hm => ?_, ih h.2⟩
    obtain ⟨e, he, hfst⟩ := List.mem_map.mp hm
    exact absurd (hfst ▸ h.1 e he) (lt_irrefl _)

theorem ainsert_append (l : List (α × β)) (k : α) (v : β)
    (h : ∀ e ∈ l, e.1 < k) : ainsert l k v = l ++ [(k, v)] := by
  induction l with
  | nil => simp [ainsert]
  | cons hd tl ih =>
    obtain ⟨a, b⟩ := hd
    have ha : a < k := h (a, b) (List.mem_cons_self _ _)
    rw [ainsert, if_neg (not_lt_of_gt ha),
        if_neg (fun hh => absurd (hh ▸ ha) (lt_irrefl _)),
        ih (fun e he => h e (List.mem_cons_of_mem _ he))]
    simp

end AList

end KvsModel

namespace KvsModel

/-! ## Commands and their serde_json encoding size

`Command` mirrors the `enum Command { Set { key, value }, Remove { key } }`
of `kvs.rs`. The log stores `serde_json::to_writer` output, e.g.
`{"Set":{"key":"k","value":"v"}}`; only the byte length of the encoding is
needed to reproduce the `CommandPos` arithmetic, so we compute it from
serde_json's string-escaping rules instead of materialising the bytes. -/

inductive Command where
  | Set (key value : String)
  | Remove (key : String)
deriving DecidableEq, Repr

/-- Encoded byte length of one character inside a JSON string literal
(serde_json escapes `"`, `\`, the short control escapes, and other control
characters as `\u00XX`; everything else is raw UTF-8). -/
def jsonCharLen (c : Char) : Nat :=
  if c = '"' ∨ c = '\\' then 2
  else if c = '\x08' ∨ c = '\t' ∨ c = '\n' ∨ c = '\x0c' ∨ c = '\r' then 2
  else if c.val < 0x20 then 6
  else c.utf8Size

/-- Byte length of the JSON string literal for `s` (quotes included). -/
def jsonStrLen (s : String) : Nat :=
  2 + s.data.foldr (fun c n => jsonCharLen c + n) 0

/-- Byte length of the serde_json encoding of a command:
`{"Set":{"key":K,"value":V}}` is 25 bytes of fixed syntax plus the two
string literals; `{"Remove":{"key":K}}` is 19 bytes plus one literal. -/
def encLen : Command → Nat
  | .Set key value => 25 + jsonStrLen key + jsonStrLen value
  | .Remove key => 19 + jsonStrLen key

theorem encLen_pos (c : Command) : 0 < encLen c := by
  cases c <;> simp [encLen]

/-- What follows the last complete record of a log file: a clean end, a
record cut short by a truncated write, or undecodable bytes. -/
inductive Tail where
  | clean
  | truncated
  | garbage
deriving DecidableEq, Repr

/-- A `<gen>.log` file, at record granularity. -/
structure LogFile where
  records : List Command
  tail : Tail
deriving DecidableEq, Repr

def emptyFile : LogFile := ⟨[], Tail.clean⟩

/-- Mirrors `struct CommandPos { gen, pos, len }`. -/
structure CommandPos where
  gen : Nat
  pos : Nat
  len : Nat
deriving DecidableEq, Repr

/-- Total byte size of a list of records. -/
def sizeRecs (rs : List Command) : Nat :=
  rs.foldr (fun c n => encLen c + n) 0

/-- The record starting exactly at byte offset `pos`, if any. -/
def recordAtExact : List Command → Nat → Option Command
  | [], _ => none
  | c :: rest, pos =>
    if pos = 0 then some c
    else if pos < encLen c then none
    else recordAtExact rest (pos - encLen c)

/-- Decoding one record from `reader.take(len)` positioned at `pos`
(`KvStoreReader::read_command`): succeeds iff `pos` is a record boundary
and `len` covers exactly that record — or over-covers it at a clean end of
file, where `take` yields only the remaining bytes. -/
def recordAtAt (tailClean : Bool) : List Command → Nat → Nat → Option Command
  | [], _, _ => none
  | c :: rest, pos, len =>
    if pos = 0 then
      if len = encLen c ∨ (encLen c < len ∧ rest = [] ∧ tailClean = true) then some c
      else none
    else if pos < encLen c then none
    else recordAtAt tailClean rest (pos - encLen c) len

def recordAt (f : LogFile) (pos len : Nat) : Option Command :=
  recordAtAt (decide (f.tail = Tail.clean)) f.records pos len

/-- Deserialization failures, distinguishing the clean-truncation EOF case
serde_json reports from other corruption. -/
inductive SerdeErr where
  | eofWhileParsing
  | invalidData
deriving DecidableEq, Repr

/-- Mirrors `KvsError` from the crate root. -/
inductive KvsError where
  | Io
  | Serde (e : SerdeErr)
  | KeyNotFound
  | UnexpectedCommandType
  | StringError (msg : String)
deriving DecidableEq, Repr

/-- The data directory: generation number to log file. -/
abbrev Dir := List (Nat × LogFile)

/-- The in-memory index (`SkipMap<String, CommandPos>`). -/
abbrev Index := List (String × CommandPos)

/-- Read and decode the record a log pointer refers to
(`KvStoreReader::read_command` via `build_cmd_reader`): open the file of
`cp.gen` (I/O error if it does not exist), seek to `cp.pos`, decode from
`take(cp.len)`. -/
def readCommand (d : Dir) (cp : CommandPos) : Except KvsError Command :=
  match aget d cp.gen with
  | none => .error .Io
  | some f =>
    match recordAt f cp.pos cp.len with
    | some cmd => .ok cmd
    | none => .error (.Serde .invalidData)

/-- Mirrors `const COMPACTION_THRESHOLD: u64 = 1024`. -/
def COMPACTION_THRESHOLD : Nat := 1024

/-- The shared state of one `KvStore`: the log files on disk, the index,
and the writer-lock-protected fields (`uncompacted`, `current_gen`, the
writer's byte position) plus the atomic `safe_point`. Per-handle reader
caches are modelled separately (`ReaderCache`). -/
structure KvState where
  files : Dir
  index : Index
  uncompacted : Nat
  currentGen : Nat
  writerPos : Nat
  safePoint : Nat
deriving DecidableEq, Repr

/-- Mirrors `KvStore::get` (kvs.rs lines 143-153). -/
def KvState.get (s : KvState) (key : String) : Except KvsError (Option String) :=
  match aget s.index key with
  | some cp =>
    match readCommand s.files cp with
    | .ok (Command.Set _ value) => .ok (some value)
    | .ok _ => .error .UnexpectedCommandType
    | .error e => .error e
  | none => .ok none

/-- Append one serialized command to the current log file
(`serde_json::to_writer(&mut self.writer, &command)` + `flush`). -/
def KvState.appendRecord (s : KvState) (cmd : Command) : Dir :=
  let cur := (aget s.files s.currentGen).getD emptyFile
  ainsert s.files s.currentGen ⟨cur.records ++ [cmd], cur.tail⟩

/-- The compaction copy loop (`KvStoreWriter::compact`, lines 320-332):
walk the index in key order, copy each pointed-to record into the
compaction file at the running offset `newPos`, and re-point the entry at
`(compaction_gen, newPos, len)` where `len` is the byte count `io::copy`
returned. Byte-level copying is modelled at record granularity, so the
copied bytes are the record the pointer designates. -/
def copyEntries (d : Dir) (compactionGen : Nat) :
    List (String × CommandPos) → Nat →
    Except KvsError (List (String × CommandPos) × List Command)
  | [], _ => .ok ([], [])
  | (k, cp) :: rest, newPos =>
    match readCommand d cp with
    | .error e => .error e
    | .ok cmd =>
      match copyEntries d compactionGen rest (newPos + encLen cmd) with
      | .error e => .error e
      | .ok (es, recs) =>
        .ok ((k, ⟨compactionGen, newPos, encLen cmd⟩) :: es, cmd :: recs)

/-- Mirrors `KvStoreWriter::compact` (lines 308-364): allocate
`compaction_gen = current_gen + 1` and switch the writer to
`current_gen + 2`; copy live records into the compaction file; flush;
publish `safe_point`; delete every log file with `gen < compaction_gen`
(deletion succeeds in this single-handle model); reset `uncompacted`. -/
def KvState.compact (s : KvState) : Except KvsError KvState :=
  let compactionGen := s.currentGen + 1
  let currentGen' := s.currentGen + 2
  let files1 := ainsert s.files currentGen' emptyFile
  let files2 := ainsert files1 compactionGen emptyFile
  match copyEntries s.files compactionGen s.index 0 with
  | .error e => .error e
  | .ok (index', recs) =>
    let files3 := ainsert files2 compactionGen ⟨recs, Tail.clean⟩
    -- stale gens are exactly those with gen < compaction_gen; keep the rest
    let files4 := files3.filter (fun e => decide (compactionGen ≤ e.1))
    .ok { files := files4, index := index', uncompacted := 0,
          currentGen := currentGen', writerPos := 0, safePoint := compactionGen }

/-- Mirrors `KvStoreWriter::set` (lines 260-279). -/
def KvState.set (s : KvState) (key value : String) : Except KvsError KvState :=
  let command := Command.Set key value
  let pos := s.writerPos
  let files' := s.appendRecord command
  let writerPos' := pos + encLen command
  let uncompacted' := s.uncompacted +
    (match aget s.index key with | some old => old.len | none => 0)
  let index' := ainsert s.index key ⟨s.currentGen, pos, encLen command⟩
  let s' : KvState := { s with files := files', writerPos := writerPos',
                               uncompacted := uncompacted', index := index' }
  if s'.uncompacted > COMPACTION_THRESHOLD then s'.compact else .ok s'

/-- Mirrors `KvStoreWriter::remove` (lines 281-305): `KeyNotFound` when the
index lacks the key; otherwise append a `Remove` record, drop the index
entry, and count both the removed pointer's length and the fresh remove
record's length as uncompacted. -/
def KvState.remove (s : KvState) (key : String) : Except KvsError KvState :=
  if (aget s.index key).isSome then
    let command := Command.Remove key
    let pos := s.writerPos
    let files' := s.appendRecord command
    let writerPos' := pos + encLen command
    let rm := aremove s.index key
    let uncompacted' := s.uncompacted +
      (match rm.2 with | some old => old.len | none => 0) + (writerPos' - pos)
    let s' : KvState := { s with files := files', writerPos := writerPos',
                                 uncompacted := uncompacted', index := rm.1 }
    if s'.uncompacted > COMPACTION_THRESHOLD then s'.compact else .ok s'
  else .error .KeyNotFound

/-! ## Recovery (`load`, `sorted_gen_list`, `KvStore::open`) -/

/-- The replay loop of `load` (lines 526-547): stream records, tracking
`pos`/`new_pos`, inserting `Set` pointers and erasing removed keys while
accumulating the uncompacted byte estimate. -/
def loadRecords (gen : Nat) : List Command → Nat → Index → Nat → Index × Nat
  | [], _, idx, unc => (idx, unc)
  | cmd :: rest, pos, idx, unc =>
    let newPos := pos + encLen cmd
    match cmd with
    | Command.Set key _ =>
      let unc' := unc + (match aget idx key with | some old => old.len | none => 0)
      loadRecords gen rest newPos (ainsert idx key ⟨gen, pos, encLen cmd⟩) unc'
    | Command.Remove key =>
      let rm := aremove idx key
      let unc' := unc + (match rm.2 with | some old => old.len | none => 0) + (newPos - pos)
      loadRecords gen rest newPos rm.1 unc'

/-- Mirrors `load` (lines 515-550). The stream iterator yields every
complete record and then, unless the file ends cleanly, a decode error —
which `match cmd?` propagates, so a truncated or corrupt tail fails the
whole load after the complete records were already replayed. -/
def load (gen : Nat) (f : LogFile) (idx : Index) : Except KvsError (Index × Nat) :=
  let r := loadRecords gen f.records 0 idx 0
  match f.tail with
  | Tail.clean => .ok r
  | Tail.truncated => .error (.Serde .eofWhileParsing)
  | Tail.garbage => .error (.Serde .invalidData)

/-- Insertion step of sorting the directory's generation-numbered files
(`sorted_gen_list` sorts the parsed `<gen>.log` stems ascending). -/
def insertByGen (e : Nat × LogFile) : Dir → Dir
  | [] => [e]
  | e' :: rest => if e.1 ≤ e'.1 then e :: e' :: rest else e' :: insertByGen e rest

def sortByGen (d : Dir) : Dir := d.foldr insertByGen []

/-- The replay loop of `KvStore::open` (lines 71-75): load each generation
file in ascending order, summing the uncompacted estimates. -/
def loadGens : Dir → Index → Nat → Except KvsError (Index × Nat)
  | [], idx, unc => .ok (idx, unc)
  | (gen, f) :: rest, idx, unc =>
    match load gen f idx with
    | .error e => .error e
    | .ok r => loadGens rest r.1 (unc + r.2)

/-- Mirrors `KvStore::open` (lines 58-102): replays `sorted_gen_list` in
ascending order, then starts the writer on a fresh file at
`gen_list.last().unwrap_or(&0) + 1` with `safe_point = 0`. -/
def openStore (d : Dir) : Except KvsError KvState :=
  let sorted := sortByGen d
  match loadGens sorted [] 0 with
  | .error e => .error e
  | .ok r =>
    let currentGen := ((sorted.map Prod.fst).getLast?.getD 0) + 1
    .ok { files := ainsert d currentGen emptyFile, index := r.1,
          uncompacted := r.2, currentGen := currentGen,
          writerPos := 0, safePoint := 0 }

end KvsModel

namespace KvsModel

/-! ## Replay as a pure fold over the directory

`replayIdx` is the index part of replaying every file in directory order;
it is the specification device used to relate a live engine to what `open`
would rebuild from its files. -/

/-- Index effect of replaying a single record (the two arms of the `match`
inside `load`). -/
def applyIdx (gen pos : Nat) (cmd : Command) (idx : Index) : Index :=
  match cmd with
  | Command.Set key value => ainsert idx key ⟨gen, pos, encLen (Command.Set key value)⟩
  | Command.Remove key => (aremove idx key).1

/-- Index effect of replaying a whole record list from offset `pos`. -/
def loadIdx (gen : Nat) : List Command → Nat → Index → Index
  | [], _, idx => idx
  | cmd :: rest, pos, idx => loadIdx gen rest (pos + encLen cmd) (applyIdx gen pos cmd idx)

/-- Index effect of replaying a directory, files in list order. -/
def replayIdx : Dir → Index → Index
  | [], idx => idx
  | (gen, f) :: rest, idx => replayIdx rest (loadIdx gen f.records 0 idx)

/-- A live index entry is backed by the log: its pointer designates, in the
file of its generation, a `Set` record for exactly this key whose encoded
length equals the pointer's `len`. -/
def entryOk (d : Dir) (e : String × CommandPos) : Prop :=
  match aget d e.2.gen with
  | none => False
  | some f =>
    match recordAtExact f.records e.2.pos with
    | some (Command.Set key value) => key = e.1 ∧ e.2.len = encLen (Command.Set key value)
    | some (Command.Remove _) => False
    | none => False

instance (d : Dir) (e : String × CommandPos) : Decidable (entryOk d e) := by
  unfold entryOk
  split
  · infer_instance
  · split <;> infer_instance

/-- Well-formedness of a live engine state: files keyed by strictly
increasing generations, all of them cleanly decodable, the writer sitting
at the end of the current (maximal-generation) file, a sorted index whose
entries are backed by the log, and — the crucial recovery invariant — the
index is exactly what replaying the directory rebuilds. -/
def WF (s : KvState) : Prop :=
  KeysSorted s.files ∧
  (∀ e ∈ s.files, e.2.tail = Tail.clean) ∧
  (∀ e ∈ s.files, e.1 ≤ s.currentGen) ∧
  (aget s.files s.currentGen).isSome = true ∧
  s.writerPos = sizeRecs ((aget s.files s.currentGen).getD emptyFile).records ∧
  KeysSorted s.index ∧
  (∀ e ∈ s.index, entryOk s.files e) ∧
  replayIdx s.files [] = s.index

instance (s : KvState) : Decidable (WF s) := by
  unfold WF; infer_instance

instance {ε σ : Type} [DecidableEq ε] [DecidableEq σ] : DecidableEq (Except ε σ) := fun x y =>
  match x, y with
  | .ok a, .ok b =>
    if h : a = b then isTrue (by rw [h])
    else isFalse (fun hh => h (Except.ok.inj hh))
  | .ok a, .error b => isFalse (fun hh => Except.noConfusion hh)
  | .error a, .ok b => isFalse (fun hh => Except.noConfusion hh)
  | .error a, .error b =>
    if h : a = b then isTrue (by rw [h])
    else isFalse (fun hh => h (Except.error.inj hh))

/-- The state `KvStore::open` produces on an empty directory. -/
def openedEmpty : KvState :=
  { files := [(1, emptyFile)], index := [], uncompacted := 0,
    currentGen := 1, writerPos := 0, safePoint := 0 }

/-! ## Operation sequences -/

inductive Op where
  | set (key value : String)
  | remove (key : String)
deriving DecidableEq, Repr

def KvState.applyOp (s : KvState) : Op → Except KvsError KvState
  | .set k v => s.set k v
  | .remove k => s.remove k

def KvState.run (s : KvState) : List Op → Except KvsError KvState
  | [] => .ok s
  | op :: rest =>
    match s.applyOp op with
    | .error e => .error e
    | .ok s' => s'.run rest

/-! ## Per-handle reader cache and the full `get` path (`KvStoreReader`)

Each cloned `KvStore` owns a private `RefCell<BTreeMap<u64, reader>>`;
only the reader's seek offset is observable, so a cache is a sorted map
from generation to current offset. -/

abbrev ReaderCache := List (Nat × Nat)

/-- Mirrors `KvStoreReader::close_stale_handles`: repeatedly drop the
smallest cached generation while it is below `safe_point`. -/
def closeStaleHandles (safePoint : Nat) : ReaderCache → ReaderCache
  | [] => []
  | (gen, pos) :: rest =>
    if safePoint ≤ gen then (gen, pos) :: rest
    else closeStaleHandles safePoint rest

/-- Mirrors `KvStore::get` together with `read_command`/`build_cmd_reader`
(lines 143-153 and 195-226), threading the shared state and the calling
handle's private reader cache: close stale handles, open the generation's
file on first use (offset 0), seek to `cp.pos`, decode from
`take(cp.len)` (which on success consumes the `cp.len` taken bytes).
A cached handle to a file no longer on disk only arises with a concurrent
compaction, which this sequential model does not exercise, so reads go to
the directory contents. -/
def KvState.getFull (s : KvState) (cache : ReaderCache) (key : String) :
    Except KvsError (Option String) × KvState × ReaderCache :=
  match aget s.index key with
  | none => (.ok none, s, cache)
  | some cp =>
    let cache1 := closeStaleHandles s.safePoint cache
    match aget s.files cp.gen with
    | none => (.error .Io, s, cache1)
    | some f =>
      let cache2 := if (aget cache1 cp.gen).isSome then cache1 else ainsert cache1 cp.gen 0
      let cache3 := ainsert cache2 cp.gen cp.pos
      match recordAt f cp.pos cp.len with
      | some (Command.Set _ value) =>
        (.ok (some value), s, ainsert cache3 cp.gen (cp.pos + cp.len))
      | some (Command.Remove _) =>
        (.error .UnexpectedCommandType, s, ainsert cache3 cp.gen (cp.pos + cp.len))
      | none => (.error (.Serde .invalidData), s, cache3)

/-! ## Shared-queue thread pool (`thread_pool/shared_queue.rs`)

Event-level model: the pool state is the number of live workers plus the
pending task queue (task payloads are irrelevant to the counted events). -/

structure PoolState where
  workers : Nat
  queue : List Unit
deriving DecidableEq, Repr

/-- Mirrors `impl Drop for TaskReceiver` (lines 42-51): when the holding
worker thread is unwinding from a panic, spawn a replacement worker bound
to the same queue (thread creation succeeds in this model; on failure the
Rust code only logs). -/
def taskReceiverDrop (panicking : Bool) (p : PoolState) : PoolState :=
  if panicking then { p with workers := p.workers + 1 } else p

/-- A worker receives a task and the task panics: the task is consumed,
the unwinding thread drops its `TaskReceiver` with `thread::panicking()`
set — spawning the replacement — and then the panicked thread dies. -/
def workerPanicStep (p : PoolState) : PoolState :=
  let afterRecv : PoolState := { p with queue := p.queue.drop 1 }
  let afterDrop := taskReceiverDrop true afterRecv
  { afterDrop with workers := afterDrop.workers - 1 }

/-- What `receiver.0.recv()` returns once the pool's `Sender` has been
dropped: a task while the queue still holds one, then `Err(RecvError)`. -/
inductive RecvRes where
  | ok
  | err
deriving DecidableEq, Repr

def recvDisconnected : List Unit → RecvRes
  | _ :: _ => .ok
  | [] => .err

/-- Fuel-bounded transcription of the `run_task` loop (lines 53-62) run
after the pool was destroyed: `Ok(task)` runs the task and loops;
`Err(_)` only logs ("Thread exits because the thread pool is destroyed.")
and loops as well — the source's match arm contains no `break` or
`return`. The result says whether the loop has exited within `fuel`
iterations. -/
def runTaskExitsWithin : List Unit → Nat → Bool
  | _, 0 => false
  | q, fuel + 1 =>
    match recvDisconnected q with
    | .ok => runTaskExitsWithin (q.drop 1) fuel
    | .err => runTaskExitsWithin q fuel

end KvsModel

namespace KvsModel

/-! ## Structural lemmas about records, files and sorted insertion -/

theorem sizeRecs_nil : sizeRecs [] = 0 := rfl

theorem sizeRecs_cons (c : Command) (rs : List Command) :
    sizeRecs (c :: rs) = encLen c + sizeRecs rs := rfl

theorem sizeRecs_append (rs ts : List Command) :
    sizeRecs (rs ++ ts) = sizeRecs rs + sizeRecs ts := by
  induction rs with
  | nil => simp [sizeRecs]
  | cons hd tl ih =>
    rw [List.cons_append, sizeRecs_cons, sizeRecs_cons, ih]
    omega

theorem recordAtExact_append_some (rs ts : List Command) (pos : Nat) (c : Command)
    (h : recordAtExact rs pos = some c) :
    recordAtExact (rs ++ ts) pos = some c := by
  induction rs generalizing pos with
  | nil => simp [recordAtExact] at h
  | cons hd tl ih =>
    rw [recordAtExact] at h
    rw [List.cons_append, recordAtExact]
    by_cases h0 : pos = 0
    · rw [if_pos h0] at h ⊢; exact h
    · rw [if_neg h0] at h ⊢
      by_cases hlt : pos < encLen hd
      · rw [if_pos hlt] at h; exact absurd h (by simp)
      · rw [if_neg hlt] at h ⊢
        exact ih _ h

theorem recordAtExact_append_size (rs : List Command) (c : Command) (ts : List Command) :
    recordAtExact (rs ++ c :: ts) (sizeRecs rs) = some c := by
  induction rs with
  | nil => simp [recordAtExact, sizeRecs]
  | cons hd tl ih =>
    rw [List.cons_append, recordAtExact]
    have hpos : ¬ sizeRecs (hd :: tl) = 0 := by
      have := encLen_pos hd
      rw [sizeRecs_cons]
      omega
    have hlt : ¬ sizeRecs (hd :: tl) < encLen hd := by
      rw [sizeRecs_cons]
      omega
    have harg : sizeRecs (hd :: tl) - encLen hd = sizeRecs tl := by
      rw [sizeRecs_cons]
      omega
    rw [if_neg hpos, if_neg hlt, harg]
    exact ih

theorem recordAtAt_of_exact (tc : Bool) (rs : List Command) (pos : Nat) (c : Command)
    (h : recordAtExact rs pos = some c) :
    recordAtAt tc rs pos (encLen c) = some c := by
  induction rs generalizing pos with
  | nil => simp [recordAtExact] at h
  | cons hd tl ih =>
    rw [recordAtExact] at h
    by_cases h0 : pos = 0
    · rw [if_pos h0] at h
      obtain rfl : hd = c := Option.some.inj h
      rw [recordAtAt, if_pos h0, if_pos (Or.inl rfl)]
    · rw [if_neg h0] at h
      by_cases hlt : pos < encLen hd
      · rw [if_pos hlt] at h; exact absurd h (by simp)
      · rw [if_neg hlt] at h
        rw [recordAtAt, if_neg h0, if_neg hlt]
        exact ih _ h

theorem entryOk_elim (d : Dir) (e : String × CommandPos) (h : entryOk d e) :
    ∃ f value, aget d e.2.gen = some f ∧
      recordAtExact f.records e.2.pos = some (Command.Set e.1 value) ∧
      e.2.len = encLen (Command.Set e.1 value) := by
  unfold entryOk at h
  split at h
  · exact h.elim
  · rename_i f hf
    split at h
    · rename_i key value hrec
      exact ⟨f, value, hf, h.1 ▸ hrec, h.1 ▸ h.2⟩
    · exact h.elim
    · exact h.elim

theorem entryOk_intro (d : Dir) (e : String × CommandPos) (f : LogFile) (value : String)
    (hf : aget d e.2.gen = some f)
    (hr : recordAtExact f.records e.2.pos = some (Command.Set e.1 value))
    (hl : e.2.len = encLen (Command.Set e.1 value)) : entryOk d e := by
  unfold entryOk
  split
  · rename_i hnone
    rw [hf] at hnone
    exact Option.noConfusion hnone
  · rename_i f' hf'
    rw [hf] at hf'
    obtain rfl : f = f' := Option.some.inj hf'
    split
    · rename_i key value' hrec
      rw [hr] at hrec
      obtain ⟨h1, h2⟩ := Command.Set.inj (Option.some.inj hrec)
      exact ⟨h1.symm, by rw [hl, h1, h2]⟩
    · rename_i key hrec
      rw [hr] at hrec
      exact Command.noConfusion (Option.some.inj hrec)
    · rename_i hrec
      rw [hr] at hrec
      exact Option.noConfusion hrec

theorem readCommand_of_entryOk (d : Dir) (e : String × CommandPos) (h : entryOk d e) :
    ∃ value, readCommand d e.2 = .ok (Command.Set e.1 value) ∧
      e.2.len = encLen (Command.Set e.1 value) := by
  obtain ⟨f, value, hf, hr, hl⟩ := entryOk_elim d e h
  have hat : recordAt f e.2.pos e.2.len = some (Command.Set e.1 value) := by
    rw [recordAt, hl]
    exact recordAtAt_of_exact _ _ _ _ hr
  refine ⟨value, ?_, hl⟩
  unfold readCommand
  split
  · rename_i hnone
    rw [hf] at hnone
    exact Option.noConfusion hnone
  · rename_i f' hf'
    rw [hf] at hf'
    obtain rfl : f = f' := Option.some.inj hf'
    split
    · rename_i cmd hcmd
      rw [hat] at hcmd
      rw [Option.some.inj hcmd]
    · rename_i hcmd
      rw [hat] at hcmd
      exact Option.noConfusion hcmd

theorem KvState.get_of_entryOk (s : KvState) (key : String) (cp : CommandPos)
    (hidx : aget s.index key = some cp) (h : entryOk s.files (key, cp)) :
    ∃ value, s.get key = .ok (some value) := by
  obtain ⟨value, hrc0, _⟩ := readCommand_of_entryOk s.files (key, cp) h
  have hrc : readCommand s.files cp = .ok (Command.Set key value) := hrc0
  refine ⟨value, ?_⟩
  unfold KvState.get
  split
  · rename_i cp' hidx'
    rw [hidx] at hidx'
    obtain rfl : cp = cp' := Option.some.inj hidx'
    split
    · rename_i value' hrc'
      rw [hrc] at hrc'
      obtain ⟨_, h2⟩ := Command.Set.inj (Except.ok.inj hrc')
      rw [h2]
    · rename_i cmd hne hrc'
      rw [hrc] at hrc'
      exact ((hne key value (Except.ok.inj hrc').symm)).elim
    · rename_i e' hrc'
      rw [hrc] at hrc'
      exact Except.noConfusion hrc'
  · rename_i hnone
    rw [hidx] at hnone
    exact Option.noConfusion hnone

end KvsModel

namespace KvsModel

section AListExtra

variable {α β : Type} [LinearOrder α]

theorem ainsert_mid (l₁ : List (α × β)) (k : α) (v : β) (k₂ : α) (v₂ : β) (l₂ : List (α × β))
    (h₁ : ∀ e ∈ l₁, e.1 < k) (h₂ : k < k₂) :
    ainsert (l₁ ++ (k₂, v₂) :: l₂) k v = l₁ ++ (k, v) :: (k₂, v₂) :: l₂ := by
  induction l₁ with
  | nil => simp [ainsert, h₂]
  | cons hd tl ih =>
    obtain ⟨a, b⟩ := hd
    have ha : a < k := h₁ (a, b) (List.mem_cons_self _ _)
    rw [List.cons_append, ainsert, if_neg (not_lt_of_gt ha),
        if_neg (fun hh => absurd (hh ▸ ha) (lt_irrefl _)),
        ih (fun e he => h₁ e (List.mem_cons_of_mem _ he))]
    rw [List.cons_append]

theorem ainsert_mid_replace (l₁ : List (α × β)) (k : α) (v v₂ : β) (l₂ : List (α × β))
    (h₁ : ∀ e ∈ l₁, e.1 < k) :
    ainsert (l₁ ++ (k, v₂) :: l₂) k v = l₁ ++ (k, v) :: l₂ := by
  induction l₁ with
  | nil => simp [ainsert]
  | cons hd tl ih =>
    obtain ⟨a, b⟩ := hd
    have ha : a < k := h₁ (a, b) (List.mem_cons_self _ _)
    rw [List.cons_append, ainsert, if_neg (not_lt_of_gt ha),
        if_neg (fun hh => absurd (hh ▸ ha) (lt_irrefl _)),
        ih (fun e he => h₁ e (List.mem_cons_of_mem _ he))]
    rw [List.cons_append]

theorem max_decomp (l : List (α × β)) (k : α) (v : β)
    (hs : KeysSorted l) (hmem : aget l k = some v) (hmax : ∀ e ∈ l, e.1 ≤ k) :
    ∃ l₀, l = l₀ ++ [(k, v)] ∧ ∀ e ∈ l₀, e.1 < k := by
  induction l with
  | nil => simp [aget] at hmem
  | cons hd tl ih =>
    obtain ⟨a, b⟩ := hd
    rw [KeysSorted, List.pairwise_cons] at hs
    by_cases heq : k = a
    · subst heq
      rw [aget, if_pos rfl] at hmem
      obtain rfl : b = v := Option.some.inj hmem
      have htl : tl = [] := by
        cases tl with
        | nil => rfl
        | cons e' tl' =>
          have h1 : k < e'.1 := hs.1 e' (List.mem_cons_self _ _)
          have h2 : e'.1 ≤ k := hmax e' (List.mem_cons_of_mem _ (List.mem_cons_self _ _))
          exact absurd (lt_of_lt_of_le h1 h2) (lt_irrefl _)
      subst htl
      exact ⟨[], rfl, by simp⟩
    · rw [aget, if_neg heq] at hmem
      obtain ⟨l₀, hl₀, hlt⟩ := ih hs.2 hmem
        (fun e he => hmax e (List.mem_cons_of_mem _ he))
      refine ⟨(a, b) :: l₀, by rw [List.cons_append, hl₀], fun e he => ?_⟩
      rcases List.mem_cons.mp he with h1 | h1
      · subst h1
        exact lt_of_le_of_ne (hmax (a, b) (List.mem_cons_self _ _))
          (fun hh => heq hh.symm)
      · exact hlt e h1

end AListExtra

end KvsModel

namespace KvsModel

section AListAppend

variable {α β : Type} [LinearOrder α]

theorem aget_append_single_eq (l₀ : List (α × β)) (k : α) (v : β)
    (h : ∀ e ∈ l₀, e.1 < k) : aget (l₀ ++ [(k, v)]) k = some v := by
  induction l₀ with
  | nil => simp [aget]
  | cons hd tl ih =>
    obtain ⟨a, b⟩ := hd
    have ha : a < k := h (a, b) (List.mem_cons_self _ _)
    rw [List.cons_append, aget, if_neg (fun hh => absurd (hh ▸ ha) (lt_irrefl _))]
    exact ih (fun e he => h e (List.mem_cons_of_mem _ he))

theorem aget_append_single_ne (l₀ : List (α × β)) (k k' : α) (v : β)
    (hne : k' ≠ k) : aget (l₀ ++ [(k, v)]) k' = aget l₀ k' := by
  induction l₀ with
  | nil => simp [aget, hne]
  | cons hd tl ih =>
    obtain ⟨a, b⟩ := hd
    by_cases h : k' = a
    · simp [aget, h]
    · rw [List.cons_append, aget, if_neg h, aget, if_neg h]
      exact ih

end AListAppend

/-! ## The replay fold versus `load` and `open` -/

theorem loadRecords_fst (gen : Nat) (rs : List Command) (pos : Nat) (idx : Index) (unc : Nat) :
    (loadRecords gen rs pos idx unc).1 = loadIdx gen rs pos idx := by
  induction rs generalizing pos idx unc with
  | nil => rfl
  | cons hd tl ih =>
    cases hd with
    | Set key value =>
      simp only [loadRecords, loadIdx, applyIdx]
      exact ih _ _ _
    | Remove key =>
      simp only [loadRecords, loadIdx, applyIdx]
      exact ih _ _ _

theorem loadIdx_append (gen : Nat) (rs : List Command) (c : Command) (pos : Nat) (idx : Index) :
    loadIdx gen (rs ++ [c]) pos idx =
      applyIdx gen (pos + sizeRecs rs) c (loadIdx gen rs pos idx) := by
  induction rs generalizing pos idx with
  | nil => simp [loadIdx, sizeRecs]
  | cons hd tl ih =>
    rw [List.cons_append, loadIdx, loadIdx, ih]
    have h3 : pos + encLen hd + sizeRecs tl = pos + sizeRecs (hd :: tl) := by
      rw [sizeRecs_cons]; omega
    rw [h3]

theorem replayIdx_append (d₁ d₂ : Dir) (idx : Index) :
    replayIdx (d₁ ++ d₂) idx = replayIdx d₂ (replayIdx d₁ idx) := by
  induction d₁ generalizing idx with
  | nil => rfl
  | cons hd tl ih =>
    obtain ⟨g, f⟩ := hd
    rw [List.cons_append, replayIdx, replayIdx]
    exact ih _

theorem insertByGen_cons_of_le (e : Nat × LogFile) (d : Dir)
    (h : ∀ x ∈ d, e.1 ≤ x.1) : insertByGen e d = e :: d := by
  cases d with
  | nil => rfl
  | cons e' rest =>
    rw [insertByGen, if_pos (h e' (List.mem_cons_self _ _))]

theorem sortByGen_of_sorted (d : Dir) (h : KeysSorted d) : sortByGen d = d := by
  induction d with
  | nil => rfl
  | cons hd tl ih =>
    rw [KeysSorted, List.pairwise_cons] at h
    have hstep : sortByGen (hd :: tl) = insertByGen hd (sortByGen tl) := rfl
    rw [hstep, ih h.2, insertByGen_cons_of_le hd tl (fun x hx => le_of_lt (h.1 x hx))]

theorem loadGens_clean (d : Dir) (hc : ∀ e ∈ d, e.2.tail = Tail.clean) :
    ∀ (idx : Index) (unc : Nat),
    ∃ u, loadGens d idx unc = .ok (replayIdx d idx, u) := by
  induction d with
  | nil => exact fun idx unc => ⟨unc, rfl⟩
  | cons hd tl ih =>
    intro idx unc
    obtain ⟨g, f⟩ := hd
    have hcf : f.tail = Tail.clean := hc (g, f) (List.mem_cons_self _ _)
    have hl : load g f idx = .ok (loadRecords g f.records 0 idx 0) := by
      unfold load; rw [hcf]
    obtain ⟨u, hu⟩ := ih (fun e he => hc e (List.mem_cons_of_mem _ he))
      (loadIdx g f.records 0 idx) (unc + (loadRecords g f.records 0 idx 0).2)
    refine ⟨u, ?_⟩
    rw [loadGens, hl]
    show loadGens tl (loadRecords g f.records 0 idx 0).1
      (unc + (loadRecords g f.records 0 idx 0).2) = _
    rw [loadRecords_fst, replayIdx]
    exact hu

theorem openStore_of_sorted_clean (d : Dir) (hs : KeysSorted d)
    (hc : ∀ e ∈ d, e.2.tail = Tail.clean) :
    ∃ u, openStore d = .ok
      { files := ainsert d (((d.map Prod.fst).getLast?.getD 0) + 1) emptyFile,
        index := replayIdx d [], uncompacted := u,
        currentGen := ((d.map Prod.fst).getLast?.getD 0) + 1,
        writerPos := 0, safePoint := 0 } := by
  obtain ⟨u, hu⟩ := loadGens_clean d hc [] 0
  refine ⟨u, ?_⟩
  unfold openStore
  simp only [sortByGen_of_sorted d hs]
  rw [hu]

/-! ## Decomposition of a well-formed state at its current generation -/

theorem WF_files_decomp (s : KvState) (h : WF s) :
    ∃ d₀ f, s.files = d₀ ++ [(s.currentGen, f)] ∧
      (∀ e ∈ d₀, e.1 < s.currentGen) ∧ f.tail = Tail.clean ∧
      s.writerPos = sizeRecs f.records := by
  obtain ⟨hfs, htc, hgl, hcm, hwp, his, heo, hre⟩ := h
  obtain ⟨f, hf⟩ := Option.isSome_iff_exists.mp hcm
  obtain ⟨d₀, hd, hlt⟩ := max_decomp s.files s.currentGen f hfs hf hgl
  refine ⟨d₀, f, hd, hlt, htc (s.currentGen, f) (by rw [hd]; simp), ?_⟩
  rw [hwp, hf]
  rfl

theorem appendRecord_decomp (s : KvState) (cmd : Command) (d₀ : Dir) (f : LogFile)
    (hd : s.files = d₀ ++ [(s.currentGen, f)]) (hlt : ∀ e ∈ d₀, e.1 < s.currentGen) :
    s.appendRecord cmd = d₀ ++ [(s.currentGen, ⟨f.records ++ [cmd], f.tail⟩)] := by
  unfold KvState.appendRecord
  have hget : aget s.files s.currentGen = some f := by
    rw [hd]; exact aget_append_single_eq d₀ s.currentGen f hlt
  rw [hget, hd]
  exact ainsert_mid_replace d₀ s.currentGen _ f [] hlt

end KvsModel

namespace KvsModel

/-! ## The compaction copy loop -/

theorem forall₂_map_fst {P : (String × CommandPos) → (String × CommandPos) → Prop}
    (es es' : Index) (h : List.Forall₂ P es es') (hfst : ∀ a b, P a b → b.1 = a.1) :
    es'.map Prod.fst = es.map Prod.fst := by
  induction h with
  | nil => rfl
  | cons hab htail ih => simp [hfst _ _ hab, ih]

theorem copyEntries_spec (d : Dir) (cgen : Nat) (es : List (String × CommandPos)) :
    ∀ (p : Nat), (∀ e ∈ es, entryOk d e) → KeysSorted es →
    ∃ es' recs, copyEntries d cgen es p = .ok (es', recs) ∧
      List.Forall₂ (fun (e e' : String × CommandPos) => e'.1 = e.1 ∧ e'.2.gen = cgen ∧
        p ≤ e'.2.pos ∧
        ∃ value, readCommand d e.2 = .ok (Command.Set e.1 value) ∧
          recordAtExact recs (e'.2.pos - p) = some (Command.Set e.1 value) ∧
          e'.2.len = encLen (Command.Set e.1 value)) es es' ∧
      (∀ acc : Index, (∀ x ∈ acc, ∀ e ∈ es, x.1 < e.1) →
        loadIdx cgen recs p acc = acc ++ es') := by
  induction es with
  | nil =>
    intro p _ _
    exact ⟨[], [], rfl, List.Forall₂.nil, fun acc _ => by simp [loadIdx]⟩
  | cons hd rest ih =>
    intro p hok hsort
    obtain ⟨k, cp⟩ := hd
    rw [KeysSorted, List.pairwise_cons] at hsort
    obtain ⟨value, hrc0, hlen0⟩ :=
      readCommand_of_entryOk d (k, cp) (hok (k, cp) (List.mem_cons_self _ _))
    have hrc : readCommand d cp = .ok (Command.Set k value) := hrc0
    obtain ⟨es₁, recs₁, hcall, hfa₁, hload₁⟩ := ih (p + encLen (Command.Set k value))
      (fun e he => hok e (List.mem_cons_of_mem _ he)) hsort.2
    refine ⟨(k, ⟨cgen, p, encLen (Command.Set k value)⟩) :: es₁,
      Command.Set k value :: recs₁, ?_, ?_, ?_⟩
    · simp only [copyEntries, hrc, hcall]
    · constructor
      · refine ⟨rfl, rfl, le_refl p, value, hrc0, ?_, rfl⟩
        simp [recordAtExact, Nat.sub_self]
      · refine List.Forall₂.imp ?_ hfa₁
        intro a b hab
        obtain ⟨h1, h2, h3, v', h4, h5, h6⟩ := hab
        have hel := encLen_pos (Command.Set k value)
        refine ⟨h1, h2, by omega, v', h4, ?_, h6⟩
        rw [recordAtExact,
            if_neg (by omega : ¬ b.2.pos - p = 0),
            if_neg (by omega : ¬ b.2.pos - p < encLen (Command.Set k value))]
        have harg : b.2.pos - p - encLen (Command.Set k value)
            = b.2.pos - (p + encLen (Command.Set k value)) := by omega
        rw [harg]
        exact h5
    · intro acc hacc
      rw [loadIdx]
      have happ : applyIdx cgen p (Command.Set k value) acc
          = acc ++ [(k, ⟨cgen, p, encLen (Command.Set k value)⟩)] := by
        unfold applyIdx
        exact ainsert_append acc k _ (fun x hx => hacc x hx (k, cp) (List.mem_cons_self _ _))
      have hcond : ∀ x ∈ acc ++ [(k, ⟨cgen, p, encLen (Command.Set k value)⟩)],
          ∀ e ∈ rest, x.1 < e.1 := by
        intro x hx e he
        rcases List.mem_append.mp hx with h1 | h1
        · exact hacc x h1 e (List.mem_cons_of_mem _ he)
        · have hx2 : x = (k, ⟨cgen, p, encLen (Command.Set k value)⟩) := by simpa using h1
          rw [hx2]
          exact hsort.1 e he
      rw [happ, hload₁ _ hcond, List.append_assoc]
      simp

end KvsModel

namespace KvsModel

/-! ## Helper introduction lemmas and pairing along `Forall₂` -/

theorem keysSorted_iff_map {α β : Type} [LinearOrder α] (l : List (α × β)) :
    KeysSorted l ↔ (l.map Prod.fst).Pairwise (fun x y => x < y) := by
  rw [KeysSorted, List.pairwise_map]

theorem aget_none_iff {α β : Type} [LinearOrder α] (l : List (α × β)) (k : α) :
    aget l k = none ↔ k ∉ l.map Prod.fst := by
  induction l with
  | nil => simp [aget]
  | cons hd tl ih =>
    obtain ⟨a, b⟩ := hd
    by_cases hk : k = a
    · subst hk
      simp [aget]
    · simp [aget, hk, ih]

theorem readCommand_intro (d : Dir) (cp : CommandPos) (f : LogFile) (cmd : Command)
    (hf : aget d cp.gen = some f) (hat : recordAt f cp.pos cp.len = some cmd) :
    readCommand d cp = .ok cmd := by
  unfold readCommand
  split
  · rename_i hnone
    rw [hf] at hnone
    exact Option.noConfusion hnone
  · rename_i f' hf'
    rw [hf] at hf'
    obtain rfl : f = f' := Option.some.inj hf'
    split
    · rename_i cmd' hcmd
      rw [hat] at hcmd
      rw [Option.some.inj hcmd]
    · rename_i hcmd
      rw [hat] at hcmd
      exact Option.noConfusion hcmd

theorem KvState.get_eq_of_read (s : KvState) (key : String) (cp : CommandPos) (value : String)
    (hidx : aget s.index key = some cp)
    (hrc : readCommand s.files cp = .ok (Command.Set key value)) :
    s.get key = .ok (some value) := by
  unfold KvState.get
  split
  · rename_i cp' hidx'
    rw [hidx] at hidx'
    obtain rfl : cp = cp' := Option.some.inj hidx'
    split
    · rename_i value' hrc'
      rw [hrc] at hrc'
      obtain ⟨_, h2⟩ := Command.Set.inj (Except.ok.inj hrc')
      rw [h2]
    · rename_i cmd hne hrc'
      rw [hrc] at hrc'
      exact ((hne key value (Except.ok.inj hrc').symm)).elim
    · rename_i e' hrc'
      rw [hrc] at hrc'
      exact Except.noConfusion hrc'
  · rename_i hnone
    rw [hidx] at hnone
    exact Option.noConfusion hnone

theorem KvState.get_eq_none_of_absent (s : KvState) (key : String)
    (hidx : aget s.index key = none) : s.get key = .ok none := by
  unfold KvState.get
  split
  · rename_i cp' hidx'
    rw [hidx] at hidx'
    exact Option.noConfusion hidx'
  · rfl

theorem forall₂_mem_right {γ δ : Type} {P : γ → δ → Prop} {l₁ : List γ} {l₂ : List δ}
    (h : List.Forall₂ P l₁ l₂) (b : δ) (hb : b ∈ l₂) : ∃ a ∈ l₁, P a b := by
  induction h with
  | nil => simp at hb
  | cons hab htail ih =>
    rcases List.mem_cons.mp hb with h1 | h1
    · exact ⟨_, List.mem_cons_self _ _, h1 ▸ hab⟩
    · obtain ⟨a, ha, hp⟩ := ih h1
      exact ⟨a, List.mem_cons_of_mem _ ha, hp⟩

theorem forall₂_aget {P : (String × CommandPos) → (String × CommandPos) → Prop}
    {es es' : Index} (h : List.Forall₂ P es es')
    (hfst : ∀ a b, P a b → b.1 = a.1) (key : String) :
    (aget es key = none ∧ aget es' key = none) ∨
    ∃ a b, a ∈ es ∧ b ∈ es' ∧ P a b ∧ a.1 = key ∧
      aget es key = some a.2 ∧ aget es' key = some b.2 := by
  induction h with
  | nil => exact Or.inl ⟨rfl, rfl⟩
  | @cons a₀ b₀ es₀ es₀' hab htail ih =>
    obtain ⟨ka, cpa⟩ := a₀
    obtain ⟨kb, cpb⟩ := b₀
    have hk : kb = ka := hfst _ _ hab
    by_cases hkey : key = ka
    · refine Or.inr ⟨(ka, cpa), (kb, cpb), List.mem_cons_self _ _, List.mem_cons_self _ _,
        hab, hkey.symm, ?_, ?_⟩
      · rw [aget, if_pos hkey]
      · rw [aget, if_pos (hkey.trans hk.symm)]
    · have hkb : key ≠ kb := fun hh => hkey (hh.trans hk)
      rcases ih with ⟨h1, h2⟩ | ⟨a, b, ha, hb, hp, hak, h1, h2⟩
      · refine Or.inl ⟨?_, ?_⟩
        · rw [aget, if_neg hkey]; exact h1
        · rw [aget, if_neg hkb]; exact h2
      · refine Or.inr ⟨a, b, List.mem_cons_of_mem _ ha, List.mem_cons_of_mem _ hb,
          hp, hak, ?_, ?_⟩
        · rw [aget, if_neg hkey]; exact h1
        · rw [aget, if_neg hkb]; exact h2

end KvsModel

namespace KvsModel

/-! ## Specification of `KvStoreWriter::compact` on well-formed states -/

theorem compact_spec (s : KvState) (h : WF s) :
    ∃ s', s.compact = .ok s' ∧ WF s' ∧
      s'.uncompacted = 0 ∧
      s'.currentGen = s.currentGen + 2 ∧
      s'.safePoint = s.currentGen + 1 ∧
      (∀ e ∈ s'.index, e.2.gen = s.currentGen + 1) ∧
      s'.index.map Prod.fst = s.index.map Prod.fst ∧
      (∀ key, s'.get key = s.get key) := by
  obtain ⟨hfs, htc, hgl, hcm, hwp, his, heo, hre⟩ := h
  obtain ⟨es', recs, hcall, hfa, hload⟩ :=
    copyEntries_spec s.files (s.currentGen + 1) s.index 0 heo his
  have hmapfst : es'.map Prod.fst = s.index.map Prod.fst :=
    forall₂_map_fst s.index es' hfa (fun a b hab => hab.1)
  have hlt1 : ∀ e ∈ s.files, e.1 < s.currentGen + 1 :=
    fun e he => Nat.lt_succ_of_le (hgl e he)
  have hlt2 : ∀ e ∈ s.files, e.1 < s.currentGen + 2 :=
    fun e he => by have := hgl e he; omega
  have hf1 : ainsert s.files (s.currentGen + 2) emptyFile
      = s.files ++ [(s.currentGen + 2, emptyFile)] := ainsert_append _ _ _ hlt2
  have hf2 : ainsert (s.files ++ [(s.currentGen + 2, emptyFile)]) (s.currentGen + 1) emptyFile
      = s.files ++ (s.currentGen + 1, emptyFile) :: (s.currentGen + 2, emptyFile) :: [] :=
    ainsert_mid s.files (s.currentGen + 1) emptyFile (s.currentGen + 2) emptyFile []
      hlt1 (by omega)
  have hf3 : ainsert
      (s.files ++ (s.currentGen + 1, emptyFile) :: (s.currentGen + 2, emptyFile) :: [])
      (s.currentGen + 1) ⟨recs, Tail.clean⟩
      = s.files ++ (s.currentGen + 1, (⟨recs, Tail.clean⟩ : LogFile))
          :: (s.currentGen + 2, emptyFile) :: [] :=
    ainsert_mid_replace s.files (s.currentGen + 1) ⟨recs, Tail.clean⟩ emptyFile
      ((s.currentGen + 2, emptyFile) :: []) hlt1
  have hfilter : (s.files ++ (s.currentGen + 1, (⟨recs, Tail.clean⟩ : LogFile))
        :: (s.currentGen + 2, emptyFile) :: []).filter
        (fun e => decide (s.currentGen + 1 ≤ e.1))
      = (s.currentGen + 1, (⟨recs, Tail.clean⟩ : LogFile))
          :: (s.currentGen + 2, emptyFile) :: [] := by
    rw [List.filter_append]
    have h1 : s.files.filter (fun e => decide (s.currentGen + 1 ≤ e.1)) = [] := by
      rw [List.filter_eq_nil_iff]
      intro e he
      simp only [decide_eq_true_eq]
      have := hgl e he
      omega
    rw [h1]
    simp
  have hget2 : aget ((s.currentGen + 1, (⟨recs, Tail.clean⟩ : LogFile))
      :: (s.currentGen + 2, emptyFile) :: []) (s.currentGen + 2) = some emptyFile := by
    rw [aget, if_neg (by omega : ¬ s.currentGen + 2 = s.currentGen + 1), aget, if_pos rfl]
  have hgetc : aget ((s.currentGen + 1, (⟨recs, Tail.clean⟩ : LogFile))
      :: (s.currentGen + 2, emptyFile) :: []) (s.currentGen + 1)
      = some ⟨recs, Tail.clean⟩ := by
    rw [aget, if_pos rfl]
  refine ⟨{ files := (s.currentGen + 1, (⟨recs, Tail.clean⟩ : LogFile))
              :: (s.currentGen + 2, emptyFile) :: [],
            index := es', uncompacted := 0, currentGen := s.currentGen + 2,
            writerPos := 0, safePoint := s.currentGen + 1 },
    ?_, ?_, rfl, rfl, rfl, ?_, hmapfst, ?_⟩
  · -- evaluating compact
    simp only [KvState.compact, hcall, hf1, hf2, hf3, hfilter]
  · -- WF of the compacted state
    have hA : KeysSorted ((s.currentGen + 1, (⟨recs, Tail.clean⟩ : LogFile))
        :: (s.currentGen + 2, emptyFile) :: []) := by
      rw [KeysSorted, List.pairwise_cons]
      refine ⟨fun e he => ?_, ?_⟩
      · have he2 : e = (s.currentGen + 2, emptyFile) := by simpa using he
        rw [he2]
        show s.currentGen + 1 < s.currentGen + 2
        omega
      · rw [List.pairwise_cons]
        exact ⟨fun e he => absurd he (List.not_mem_nil e), List.Pairwise.nil⟩
    have hB : ∀ e ∈ (s.currentGen + 1, (⟨recs, Tail.clean⟩ : LogFile))
        :: (s.currentGen + 2, emptyFile) :: [], e.2.tail = Tail.clean := by
      intro e he
      rcases List.mem_cons.mp he with h1 | h1
      · simp [h1]
      · have he2 : e = (s.currentGen + 2, emptyFile) := by simpa using h1
        simp [he2, emptyFile]
    have hC : ∀ e ∈ (s.currentGen + 1, (⟨recs, Tail.clean⟩ : LogFile))
        :: (s.currentGen + 2, emptyFile) :: [], e.1 ≤ s.currentGen + 2 := by
      intro e he
      rcases List.mem_cons.mp he with h1 | h1
      · have h3 : e.1 = s.currentGen + 1 := by rw [h1]
        omega
      · have he2 : e = (s.currentGen + 2, emptyFile) := by simpa using h1
        have h3 : e.1 = s.currentGen + 2 := by rw [he2]
        omega
    have hF : KeysSorted es' := by
      rw [keysSorted_iff_map, hmapfst, ← keysSorted_iff_map]
      exact his
    have hG : ∀ e' ∈ es', entryOk ((s.currentGen + 1, (⟨recs, Tail.clean⟩ : LogFile))
        :: (s.currentGen + 2, emptyFile) :: []) e' := by
      intro e' he'
      obtain ⟨a, ha, hp⟩ := forall₂_mem_right hfa e' he'
      obtain ⟨h1, h2, h3, value, h4, h5, h6⟩ := hp
      refine entryOk_intro _ e' ⟨recs, Tail.clean⟩ value ?_ ?_ ?_
      · rw [h2]
        exact hgetc
      · show recordAtExact recs e'.2.pos = some (Command.Set e'.1 value)
        rw [h1]
        simpa using h5
      · rw [h1]
        exact h6
    have hH : replayIdx ((s.currentGen + 1, (⟨recs, Tail.clean⟩ : LogFile))
        :: (s.currentGen + 2, emptyFile) :: []) [] = es' := by
      rw [replayIdx, replayIdx, replayIdx]
      show loadIdx (s.currentGen + 2) [] 0 (loadIdx (s.currentGen + 1) recs 0 []) = es'
      rw [loadIdx, hload [] (fun x hx => absurd hx (List.not_mem_nil x))]
      rfl
    have hD : (aget ((s.currentGen + 1, (⟨recs, Tail.clean⟩ : LogFile))
        :: (s.currentGen + 2, emptyFile) :: []) (s.currentGen + 2)).isSome = true := by
      rw [hget2]
      rfl
    have hE : (0 : Nat) = sizeRecs ((aget ((s.currentGen + 1, (⟨recs, Tail.clean⟩ : LogFile))
        :: (s.currentGen + 2, emptyFile) :: []) (s.currentGen + 2)).getD emptyFile).records := by
      rw [hget2]
      rfl
    exact ⟨hA, hB, hC, hD, hE, hF, hG, hH⟩
  · -- every live pointer is in the compaction generation
    intro e he
    obtain ⟨a, ha, hp⟩ := forall₂_mem_right hfa e he
    exact hp.2.1
  · -- get is preserved
    intro key
    rcases forall₂_aget hfa (fun a b hab => hab.1) key with ⟨h1, h2⟩ |
      ⟨a, b, ha, hb, hp, hak, h1, h2⟩
    · rw [KvState.get_eq_none_of_absent _ key h2, KvState.get_eq_none_of_absent _ key h1]
    · obtain ⟨hb1, hgen, _, value, hrd, hrec, hlen⟩ := hp
      have hrec' : recordAtExact recs b.2.pos = some (Command.Set key value) := by
        rw [← hak]
        simpa using hrec
      have hlen' : b.2.len = encLen (Command.Set key value) := by
        rw [← hak]
        exact hlen
      have hgs : s.get key = .ok (some value) :=
        KvState.get_eq_of_read s key a.2 value h1 (hak ▸ hrd)
      rw [hgs]
      apply KvState.get_eq_of_read _ key b.2 value h2
      apply readCommand_intro _ _ ⟨recs, Tail.clean⟩
      · rw [hgen]
        exact hgetc
      · show recordAtAt (decide (Tail.clean = Tail.clean)) recs b.2.pos b.2.len
          = some (Command.Set key value)
        rw [hlen']
        exact recordAtAt_of_exact _ _ _ _ hrec'
end KvsModel

namespace KvsModel

/-! ## Effect of appending one record to the current log file -/

theorem entryOk_append_file (d₀ : Dir) (g : Nat) (f : LogFile) (cmd : Command)
    (hlt : ∀ x ∈ d₀, x.1 < g) (e : String × CommandPos)
    (h : entryOk (d₀ ++ [(g, f)]) e) :
    entryOk (d₀ ++ [(g, ⟨f.records ++ [cmd], f.tail⟩)]) e := by
  obtain ⟨fe, value, hf, hr, hl⟩ := entryOk_elim _ e h
  by_cases hg : e.2.gen = g
  · rw [hg, aget_append_single_eq d₀ g f hlt] at hf
    have heq : fe = f := (Option.some.inj hf).symm
    rw [heq] at hr
    refine entryOk_intro _ e ⟨f.records ++ [cmd], f.tail⟩ value ?_ ?_ hl
    · rw [hg]
      exact aget_append_single_eq d₀ g _ hlt
    · exact recordAtExact_append_some _ _ _ _ hr
  · rw [aget_append_single_ne d₀ g e.2.gen f hg] at hf
    refine entryOk_intro _ e fe value ?_ hr hl
    rw [aget_append_single_ne d₀ g e.2.gen _ hg]
    exact hf

theorem readCommand_append_file (d₀ : Dir) (g : Nat) (f : LogFile) (cmd : Command)
    (hlt : ∀ x ∈ d₀, x.1 < g) (e : String × CommandPos)
    (h : entryOk (d₀ ++ [(g, f)]) e) :
    ∃ value, readCommand (d₀ ++ [(g, f)]) e.2 = .ok (Command.Set e.1 value) ∧
      readCommand (d₀ ++ [(g, ⟨f.records ++ [cmd], f.tail⟩)]) e.2
        = .ok (Command.Set e.1 value) := by
  obtain ⟨fe, value, hf, hr, hl⟩ := entryOk_elim _ e h
  refine ⟨value, ?_, ?_⟩
  · refine readCommand_intro _ _ fe _ hf ?_
    rw [recordAt, hl]
    exact recordAtAt_of_exact _ _ _ _ hr
  · by_cases hg : e.2.gen = g
    · rw [hg, aget_append_single_eq d₀ g f hlt] at hf
      have heq : fe = f := (Option.some.inj hf).symm
      rw [heq] at hr
      refine readCommand_intro _ _ ⟨f.records ++ [cmd], f.tail⟩ _ ?_ ?_
      · rw [hg]
        exact aget_append_single_eq d₀ g _ hlt
      · rw [recordAt, hl]
        exact recordAtAt_of_exact _ _ _ _ (recordAtExact_append_some _ _ _ _ hr)
    · rw [aget_append_single_ne d₀ g e.2.gen f hg] at hf
      refine readCommand_intro _ _ fe _ ?_ ?_
      · rw [aget_append_single_ne d₀ g e.2.gen _ hg]
        exact hf
      · rw [recordAt, hl]
        exact recordAtAt_of_exact _ _ _ _ hr

theorem get_eq_after_append (s s₁ : KvState) (cmd : Command) (d₀ : Dir) (f : LogFile)
    (hd : s.files = d₀ ++ [(s.currentGen, f)])
    (hlt : ∀ x ∈ d₀, x.1 < s.currentGen)
    (hfiles1 : s₁.files = d₀ ++ [(s.currentGen, ⟨f.records ++ [cmd], f.tail⟩)])
    (heo : ∀ e ∈ s.index, entryOk s.files e)
    (k' : String) (cp : CommandPos)
    (hcp : aget s.index k' = some cp) (hcp1 : aget s₁.index k' = some cp) :
    s₁.get k' = s.get k' := by
  have hok : entryOk s.files (k', cp) := heo (k', cp) (aget_mem _ _ _ hcp)
  rw [hd] at hok
  obtain ⟨value, hold, hnew⟩ := readCommand_append_file d₀ s.currentGen f cmd hlt (k', cp) hok
  have h1 : s.get k' = .ok (some value) :=
    KvState.get_eq_of_read s k' cp value hcp (by rw [hd]; exact hold)
  have h2 : s₁.get k' = .ok (some value) :=
    KvState.get_eq_of_read s₁ k' cp value hcp1 (by rw [hfiles1]; exact hnew)
  rw [h1, h2]

theorem WF_files_append (s : KvState) (cmd : Command) (d₀ : Dir) (f : LogFile)
    (hd : s.files = d₀ ++ [(s.currentGen, f)])
    (hlt : ∀ x ∈ d₀, x.1 < s.currentGen)
    (hfs : KeysSorted s.files) (htc : ∀ e ∈ s.files, e.2.tail = Tail.clean) :
    KeysSorted (d₀ ++ [(s.currentGen, ⟨f.records ++ [cmd], f.tail⟩)]) ∧
    (∀ e ∈ d₀ ++ [(s.currentGen, ⟨f.records ++ [cmd], f.tail⟩)], e.2.tail = Tail.clean) ∧
    (∀ e ∈ d₀ ++ [(s.currentGen, ⟨f.records ++ [cmd], f.tail⟩)], e.1 ≤ s.currentGen) ∧
    aget (d₀ ++ [(s.currentGen, ⟨f.records ++ [cmd], f.tail⟩)]) s.currentGen
      = some ⟨f.records ++ [cmd], f.tail⟩ := by
  rw [hd] at hfs htc
  refine ⟨?_, ?_, ?_, aget_append_single_eq d₀ s.currentGen _ hlt⟩
  · rw [KeysSorted, List.pairwise_append] at hfs ⊢
    refine ⟨hfs.1, ?_, ?_⟩
    · rw [List.pairwise_cons]
      exact ⟨fun e he => absurd he (List.not_mem_nil e), List.Pairwise.nil⟩
    · intro a ha b hb
      have hb2 : b = (s.currentGen, (⟨f.records ++ [cmd], f.tail⟩ : LogFile)) := by
        simpa using hb
      rw [hb2]
      exact hlt a ha
  · intro e he
    rcases List.mem_append.mp he with h1 | h1
    · exact htc e (List.mem_append.mpr (Or.inl h1))
    · have he2 : e = (s.currentGen, (⟨f.records ++ [cmd], f.tail⟩ : LogFile)) := by
        simpa using h1
      rw [he2]
      exact htc (s.currentGen, f) (List.mem_append.mpr (Or.inr (List.mem_cons_self _ _)))
  · intro e he
    rcases List.mem_append.mp he with h1 | h1
    · exact le_of_lt (hlt e h1)
    · have he2 : e = (s.currentGen, (⟨f.records ++ [cmd], f.tail⟩ : LogFile)) := by
        simpa using h1
      have h3 : e.1 = s.currentGen := by rw [he2]
      omega

theorem replayIdx_after_append (s : KvState) (cmd : Command) (d₀ : Dir) (f : LogFile)
    (hd : s.files = d₀ ++ [(s.currentGen, f)])
    (hwp' : s.writerPos = sizeRecs f.records)
    (hre : replayIdx s.files [] = s.index) :
    replayIdx (d₀ ++ [(s.currentGen, ⟨f.records ++ [cmd], f.tail⟩)]) []
      = applyIdx s.currentGen s.writerPos cmd s.index := by
  rw [replayIdx_append, replayIdx, replayIdx, loadIdx_append, Nat.zero_add, ← hwp']
  rw [hd] at hre
  rw [replayIdx_append, replayIdx, replayIdx] at hre
  rw [hre]

end KvsModel

namespace KvsModel

/-! ## Specifications of `KvStoreWriter::set` and `KvStoreWriter::remove` -/

theorem set_branches (s : KvState) (key value : String) :
    s.set key value =
      (if s.uncompacted + (match aget s.index key with
            | some old => old.len | none => 0) > COMPACTION_THRESHOLD
        then KvState.compact { s with
          files := s.appendRecord (Command.Set key value),
          writerPos := s.writerPos + encLen (Command.Set key value),
          uncompacted := s.uncompacted + (match aget s.index key with
            | some old => old.len | none => 0),
          index := ainsert s.index key
            ⟨s.currentGen, s.writerPos, encLen (Command.Set key value)⟩ }
        else .ok { s with
          files := s.appendRecord (Command.Set key value),
          writerPos := s.writerPos + encLen (Command.Set key value),
          uncompacted := s.uncompacted + (match aget s.index key with
            | some old => old.len | none => 0),
          index := ainsert s.index key
            ⟨s.currentGen, s.writerPos, encLen (Command.Set key value)⟩ }) := rfl

theorem set_spec (s : KvState) (key value : String) (h : WF s) :
    ∃ s', s.set key value = .ok s' ∧ WF s' ∧
      ∀ k', s'.get k' = if k' = key then .ok (some value) else s.get k' := by
  obtain ⟨d₀, f, hd, hlt, hclean, hwp'⟩ := WF_files_decomp s h
  obtain ⟨hfs, htc, hgl, hcm, hwp, his, heo, hre⟩ := h
  have happ : s.appendRecord (Command.Set key value)
      = d₀ ++ [(s.currentGen, ⟨f.records ++ [Command.Set key value], f.tail⟩)] :=
    appendRecord_decomp s _ d₀ f hd hlt
  obtain ⟨hA, hB, hC, hD⟩ := WF_files_append s (Command.Set key value) d₀ f hd hlt hfs htc
  -- the intermediate state written by `set` before the compaction check
  set s₁ : KvState := { s with
      files := s.appendRecord (Command.Set key value),
      writerPos := s.writerPos + encLen (Command.Set key value),
      uncompacted := s.uncompacted + (match aget s.index key with
        | some old => old.len | none => 0),
      index := ainsert s.index key
        ⟨s.currentGen, s.writerPos, encLen (Command.Set key value)⟩ } with hs₁
  have hfiles1 : s₁.files
      = d₀ ++ [(s.currentGen, ⟨f.records ++ [Command.Set key value], f.tail⟩)] := by
    rw [hs₁]; exact happ
  have hidx1 : s₁.index = ainsert s.index key
      ⟨s.currentGen, s.writerPos, encLen (Command.Set key value)⟩ := rfl
  have hcg1 : s₁.currentGen = s.currentGen := rfl
  have hWF1 : WF s₁ := by
    refine ⟨?_, ?_, ?_, ?_, ?_, ?_, ?_, ?_⟩
    · rw [hfiles1, hcg1]; exact hA
    · rw [hfiles1, hcg1]; exact hB
    · rw [hfiles1, hcg1]; exact hC
    · rw [hfiles1, hcg1, hD]; rfl
    · show s.writerPos + encLen (Command.Set key value) = _
      rw [hfiles1, hcg1, hD]
      show _ = sizeRecs (f.records ++ [Command.Set key value])
      rw [sizeRecs_append, hwp', sizeRecs_cons, sizeRecs_nil]
      omega
    · rw [hidx1]
      exact keysSorted_ainsert _ _ _ his
    · intro e he
      rw [hidx1] at he
      rw [hfiles1, hcg1]
      rcases mem_ainsert _ _ _ _ he with h1 | h1
      · -- the freshly inserted pointer
        rw [h1]
        refine entryOk_intro _ _ ⟨f.records ++ [Command.Set key value], f.tail⟩ value
          ?_ ?_ rfl
        · exact aget_append_single_eq d₀ s.currentGen _ hlt
        · show recordAtExact (f.records ++ [Command.Set key value]) s.writerPos
            = some (Command.Set key value)
          rw [hwp']
          exact recordAtExact_append_size f.records (Command.Set key value) []
      · have h2 : entryOk s.files e := heo e h1
        rw [hd] at h2
        exact entryOk_append_file d₀ s.currentGen f (Command.Set key value) hlt e h2
    · rw [hfiles1, hidx1]
      rw [replayIdx_after_append s (Command.Set key value) d₀ f hd hwp' hre]
      rfl
  have hget1 : ∀ k', s₁.get k' = if k' = key then .ok (some value) else s.get k' := by
    intro k'
    by_cases hk : k' = key
    · rw [if_pos hk, hk]
      refine KvState.get_eq_of_read s₁ key
        ⟨s.currentGen, s.writerPos, encLen (Command.Set key value)⟩ value ?_ ?_
      · rw [hidx1, aget_ainsert, if_pos rfl]
      · refine readCommand_intro _ _
          ⟨f.records ++ [Command.Set key value], f.tail⟩ _ ?_ ?_
        · show aget s₁.files s.currentGen = _
          rw [hfiles1]
          exact aget_append_single_eq d₀ s.currentGen _ hlt
        · show recordAt _ s.writerPos (encLen (Command.Set key value)) = _
          rw [recordAt]
          refine recordAtAt_of_exact _ _ _ _ ?_
          rw [hwp']
          exact recordAtExact_append_size f.records (Command.Set key value) []
    · rw [if_neg hk]
      have hag : aget s₁.index k' = aget s.index k' := by
        rw [hidx1, aget_ainsert, if_neg hk]
      cases hcp : aget s.index k' with
      | none =>
        rw [KvState.get_eq_none_of_absent s₁ k' (by rw [hag]; exact hcp),
            KvState.get_eq_none_of_absent s k' hcp]
      | some cp =>
        exact get_eq_after_append s s₁ (Command.Set key value) d₀ f hd hlt hfiles1 heo
          k' cp hcp (by rw [hag]; exact hcp)
  rw [set_branches]
  by_cases hthr : s.uncompacted + (match aget s.index key with
      | some old => old.len | none => 0) > COMPACTION_THRESHOLD
  · rw [if_pos hthr]
    obtain ⟨s₂, hc1, hc2, _, _, _, _, _, hc8⟩ := compact_spec s₁ hWF1
    refine ⟨s₂, hc1, hc2, fun k' => ?_⟩
    rw [hc8 k', hget1 k']
  · rw [if_neg hthr]
    exact ⟨s₁, rfl, hWF1, hget1⟩

end KvsModel

namespace KvsModel

theorem remove_branches (s : KvState) (key : String)
    (hk : (aget s.index key).isSome = true) :
    s.remove key =
      (if s.uncompacted + (match (aremove s.index key).2 with
            | some old => old.len | none => 0)
          + (s.writerPos + encLen (Command.Remove key) - s.writerPos)
          > COMPACTION_THRESHOLD
        then KvState.compact { s with
          files := s.appendRecord (Command.Remove key),
          writerPos := s.writerPos + encLen (Command.Remove key),
          uncompacted := s.uncompacted + (match (aremove s.index key).2 with
            | some old => old.len | none => 0)
            + (s.writerPos + encLen (Command.Remove key) - s.writerPos),
          index := (aremove s.index key).1 }
        else .ok { s with
          files := s.appendRecord (Command.Remove key),
          writerPos := s.writerPos + encLen (Command.Remove key),
          uncompacted := s.uncompacted + (match (aremove s.index key).2 with
            | some old => old.len | none => 0)
            + (s.writerPos + encLen (Command.Remove key) - s.writerPos),
          index := (aremove s.index key).1 }) := by
  unfold KvState.remove
  rw [if_pos hk]

theorem remove_absent_eq (s : KvState) (key : String)
    (hk : (aget s.index key).isSome = false) :
    s.remove key = .error .KeyNotFound := by
  unfold KvState.remove
  rw [if_neg (by simp [hk])]

theorem remove_spec (s : KvState) (key : String) (h : WF s)
    (hk : (aget s.index key).isSome = true) :
    ∃ s', s.remove key = .ok s' ∧ WF s' ∧
      ∀ k', s'.get k' = if k' = key then .ok none else s.get k' := by
  obtain ⟨d₀, f, hd, hlt, hclean, hwp'⟩ := WF_files_decomp s h
  obtain ⟨hfs, htc, hgl, hcm, hwp, his, heo, hre⟩ := h
  have hnd : (s.index.map Prod.fst).Nodup := keysSorted_nodup _ his
  have happ : s.appendRecord (Command.Remove key)
      = d₀ ++ [(s.currentGen, ⟨f.records ++ [Command.Remove key], f.tail⟩)] :=
    appendRecord_decomp s _ d₀ f hd hlt
  obtain ⟨hA, hB, hC, hD⟩ := WF_files_append s (Command.Remove key) d₀ f hd hlt hfs htc
  set s₁ : KvState := { s with
      files := s.appendRecord (Command.Remove key),
      writerPos := s.writerPos + encLen (Command.Remove key),
      uncompacted := s.uncompacted + (match (aremove s.index key).2 with
        | some old => old.len | none => 0)
        + (s.writerPos + encLen (Command.Remove key) - s.writerPos),
      index := (aremove s.index key).1 } with hs₁
  have hfiles1 : s₁.files
      = d₀ ++ [(s.currentGen, ⟨f.records ++ [Command.Remove key], f.tail⟩)] := by
    rw [hs₁]; exact happ
  have hidx1 : s₁.index = (aremove s.index key).1 := rfl
  have hcg1 : s₁.currentGen = s.currentGen := rfl
  have hWF1 : WF s₁ := by
    refine ⟨?_, ?_, ?_, ?_, ?_, ?_, ?_, ?_⟩
    · rw [hfiles1, hcg1]; exact hA
    · rw [hfiles1, hcg1]; exact hB
    · rw [hfiles1, hcg1]; exact hC
    · rw [hfiles1, hcg1, hD]; rfl
    · show s.writerPos + encLen (Command.Remove key) = _
      rw [hfiles1, hcg1, hD]
      show _ = sizeRecs (f.records ++ [Command.Remove key])
      rw [sizeRecs_append, hwp', sizeRecs_cons, sizeRecs_nil]
      omega
    · rw [hidx1]
      exact keysSorted_aremove _ _ his
    · intro e he
      rw [hidx1] at he
      rw [hfiles1, hcg1]
      have h2 : entryOk s.files e := heo e (mem_aremove_fst _ _ _ he)
      rw [hd] at h2
      exact entryOk_append_file d₀ s.currentGen f (Command.Remove key) hlt e h2
    · rw [hfiles1, hidx1]
      rw [replayIdx_after_append s (Command.Remove key) d₀ f hd hwp' hre]
      rfl
  have hget1 : ∀ k', s₁.get k' = if k' = key then .ok none else s.get k' := by
    intro k'
    by_cases hk' : k' = key
    · rw [if_pos hk', hk']
      refine KvState.get_eq_none_of_absent s₁ key ?_
      rw [hidx1, aget_aremove _ _ hnd, if_pos rfl]
    · rw [if_neg hk']
      have hag : aget s₁.index k' = aget s.index k' := by
        rw [hidx1, aget_aremove _ _ hnd, if_neg hk']
      cases hcp : aget s.index k' with
      | none =>
        rw [KvState.get_eq_none_of_absent s₁ k' (by rw [hag]; exact hcp),
            KvState.get_eq_none_of_absent s k' hcp]
      | some cp =>
        exact get_eq_after_append s s₁ (Command.Remove key) d₀ f hd hlt hfiles1 heo
          k' cp hcp (by rw [hag]; exact hcp)
  rw [remove_branches s key hk]
  by_cases hthr : s.uncompacted + (match (aremove s.index key).2 with
      | some old => old.len | none => 0)
      + (s.writerPos + encLen (Command.Remove key) - s.writerPos)
      > COMPACTION_THRESHOLD
  · rw [if_pos hthr]
    obtain ⟨s₂, hc1, hc2, _, _, _, _, _, hc8⟩ := compact_spec s₁ hWF1
    refine ⟨s₂, hc1, hc2, fun k' => ?_⟩
    rw [hc8 k', hget1 k']
  · rw [if_neg hthr]
    exact ⟨s₁, rfl, hWF1, hget1⟩

end KvsModel

namespace KvsModel

/-! ## Facts about `sorted_gen_list` on arbitrary directories, and failing loads -/

theorem mem_insertByGen (e x : Nat × LogFile) (d : Dir) :
    x ∈ insertByGen e d ↔ x = e ∨ x ∈ d := by
  induction d with
  | nil => simp [insertByGen]
  | cons hd tl ih =>
    rw [insertByGen]
    by_cases hle : e.1 ≤ hd.1
    · rw [if_pos hle]
      simp
    · rw [if_neg hle]
      simp only [List.mem_cons, ih]
      tauto

theorem mem_sortByGen (x : Nat × LogFile) (d : Dir) : x ∈ sortByGen d ↔ x ∈ d := by
  induction d with
  | nil => simp [sortByGen]
  | cons hd tl ih =>
    have hstep : sortByGen (hd :: tl) = insertByGen hd (sortByGen tl) := rfl
    rw [hstep, mem_insertByGen]
    simp [ih]

theorem insertByGen_pairwise (e : Nat × LogFile) (d : Dir)
    (h : d.Pairwise (fun x y => x.1 ≤ y.1)) :
    (insertByGen e d).Pairwise (fun x y => x.1 ≤ y.1) := by
  induction d with
  | nil => simp [insertByGen]
  | cons hd tl ih =>
    rw [List.pairwise_cons] at h
    rw [insertByGen]
    by_cases hle : e.1 ≤ hd.1
    · rw [if_pos hle, List.pairwise_cons]
      refine ⟨fun x hx => ?_, List.pairwise_cons.mpr h⟩
      rcases List.mem_cons.mp hx with h1 | h1
      · rw [h1]; exact hle
      · exact le_trans hle (h.1 x h1)
    · rw [if_neg hle, List.pairwise_cons]
      refine ⟨fun x hx => ?_, ih h.2⟩
      rcases (mem_insertByGen e x tl).mp hx with h1 | h1
      · rw [h1]; omega
      · exact h.1 x h1

theorem sortByGen_pairwise (d : Dir) :
    (sortByGen d).Pairwise (fun x y => x.1 ≤ y.1) := by
  induction d with
  | nil => simp [sortByGen]
  | cons hd tl ih =>
    have hstep : sortByGen (hd :: tl) = insertByGen hd (sortByGen tl) := rfl
    rw [hstep]
    exact insertByGen_pairwise hd _ ih

theorem pairwise_le_getLast (l : List (Nat × LogFile))
    (h : l.Pairwise (fun x y => x.1 ≤ y.1)) :
    ∀ e ∈ l, e.1 ≤ ((l.map Prod.fst).getLast?.getD 0) := by
  induction l with
  | nil => intro e he; simp at he
  | cons hd tl ih =>
    rw [List.pairwise_cons] at h
    intro e he
    cases tl with
    | nil =>
      have h1 : e = hd := by simpa using he
      rw [h1]
      simp
    | cons hd2 tl2 =>
      have hlast : (((hd :: hd2 :: tl2).map Prod.fst).getLast?.getD 0)
          = (((hd2 :: tl2).map Prod.fst).getLast?.getD 0) := by
        simp [List.getLast?_cons_cons]
      rw [hlast]
      rcases List.mem_cons.mp he with h1 | h1
      · have h2 := ih h.2 hd2 (List.mem_cons_self _ _)
        have h3 : hd.1 ≤ hd2.1 := h.1 hd2 (List.mem_cons_self _ _)
        have h4 : e.1 = hd.1 := by rw [h1]
        omega
      · exact ih h.2 e h1

theorem getLast_keys_mem (l : List (Nat × LogFile)) (hne : l ≠ []) :
    ∃ e ∈ l, e.1 = ((l.map Prod.fst).getLast?.getD 0) := by
  induction l with
  | nil => exact absurd rfl hne
  | cons hd tl ih =>
    cases tl with
    | nil => exact ⟨hd, List.mem_cons_self _ _, by simp⟩
    | cons hd2 tl2 =>
      obtain ⟨e, he, hlast⟩ := ih (by simp)
      refine ⟨e, List.mem_cons_of_mem _ he, ?_⟩
      rw [hlast]
      simp [List.getLast?_cons_cons]

theorem loadGens_error_of_bad_tail (d : Dir) :
    ∀ (idx : Index) (unc : Nat),
    (∃ e ∈ d, e.2.tail ≠ Tail.clean) →
    ∃ er, loadGens d idx unc = .error (KvsError.Serde er) := by
  induction d with
  | nil =>
    intro idx unc h
    obtain ⟨e, he, _⟩ := h
    simp at he
  | cons hd tl ih =>
    intro idx unc h
    obtain ⟨e, he, hbad⟩ := h
    obtain ⟨g, f⟩ := hd
    rw [loadGens]
    cases hft : f.tail with
    | clean =>
      have hl : load g f idx = .ok (loadRecords g f.records 0 idx 0) := by
        unfold load; rw [hft]
      rw [hl]
      rcases List.mem_cons.mp he with h1 | h1
      · rw [h1] at hbad
        exact absurd hft hbad
      · exact ih _ _ ⟨e, h1, hbad⟩
    | truncated =>
      have hl : load g f idx = .error (.Serde .eofWhileParsing) := by
        unfold load; rw [hft]
      rw [hl]
      exact ⟨.eofWhileParsing, rfl⟩
    | garbage =>
      have hl : load g f idx = .error (.Serde .invalidData) := by
        unfold load; rw [hft]
      rw [hl]
      exact ⟨.invalidData, rfl⟩

theorem openStore_of_WF (s : KvState) (h : WF s) :
    ∃ s', openStore s.files = .ok s' ∧ s'.index = s.index ∧
      ∀ key, s'.get key = s.get key := by
  obtain ⟨hfs, htc, hgl, hcm, hwp, his, heo, hre⟩ := h
  obtain ⟨u, hu⟩ := openStore_of_sorted_clean s.files hfs htc
  refine ⟨_, hu, hre, ?_⟩
  intro key
  cases hcp : aget s.index key with
  | none =>
    rw [KvState.get_eq_none_of_absent s key hcp]
    refine KvState.get_eq_none_of_absent _ key ?_
    show aget (replayIdx s.files []) key = none
    rw [hre]
    exact hcp
  | some cp =>
    have hok : entryOk s.files (key, cp) := heo (key, cp) (aget_mem _ _ _ hcp)
    obtain ⟨value, hrc, _⟩ := readCommand_of_entryOk s.files (key, cp) hok
    have hrc2 : readCommand s.files cp = .ok (Command.Set key value) := hrc
    rw [KvState.get_eq_of_read s key cp value hcp hrc2]
    -- the reopened engine reads the same pointer from the same file
    have hgen_mem : cp.gen ∈ s.files.map Prod.fst := by
      obtain ⟨fe, _, hf, _, _⟩ := entryOk_elim _ _ hok
      by_contra hnot
      rw [(aget_none_iff s.files cp.gen).mpr hnot] at hf
      exact Option.noConfusion hf
    have hle : cp.gen ≤ (s.files.map Prod.fst).getLast?.getD 0 := by
      obtain ⟨e, he, hfst⟩ := List.mem_map.mp hgen_mem
      have := pairwise_le_getLast s.files
        (List.Pairwise.imp (fun hxy => le_of_lt hxy) hfs) e he
      omega
    have hne : cp.gen ≠ (s.files.map Prod.fst).getLast?.getD 0 + 1 := by omega
    have hrc3 : readCommand
        (ainsert s.files ((s.files.map Prod.fst).getLast?.getD 0 + 1) emptyFile) cp
        = readCommand s.files cp := by
      unfold readCommand
      rw [aget_ainsert, if_neg hne]
    refine KvState.get_eq_of_read _ key cp value ?_ ?_
    · show aget (replayIdx s.files []) key = some cp
      rw [hre]
      exact hcp
    · show readCommand
        (ainsert s.files ((s.files.map Prod.fst).getLast?.getD 0 + 1) emptyFile) cp = _
      rw [hrc3]
      exact hrc2

end KvsModel

namespace KvsModel

/-! ## Preservation of well-formedness along operation sequences -/

theorem applyOp_WF (s : KvState) (op : Op) (h : WF s) (s₁ : KvState)
    (hap : s.applyOp op = .ok s₁) : WF s₁ := by
  cases op with
  | set k v =>
    obtain ⟨t, h1, h2, _⟩ := set_spec s k v h
    have h1' : s.applyOp (Op.set k v) = .ok t := h1
    rw [h1'] at hap
    exact (Except.ok.inj hap) ▸ h2
  | remove k =>
    cases hkk : (aget s.index k).isSome with
    | true =>
      obtain ⟨t, h1, h2, _⟩ := remove_spec s k h hkk
      have h1' : s.applyOp (Op.remove k) = .ok t := h1
      rw [h1'] at hap
      exact (Except.ok.inj hap) ▸ h2
    | false =>
      have h1' : s.applyOp (Op.remove k) = .error .KeyNotFound := remove_absent_eq s k hkk
      rw [h1'] at hap
      exact Except.noConfusion hap

theorem run_preserves_WF (ops : List Op) : ∀ (s : KvState), WF s →
    ∀ s', s.run ops = .ok s' → WF s' := by
  induction ops with
  | nil =>
    intro s h s' hr
    rw [KvState.run] at hr
    exact (Except.ok.inj hr) ▸ h
  | cons op rest ih =>
    intro s h s' hr
    rw [KvState.run] at hr
    cases hap : s.applyOp op with
    | error e =>
      rw [hap] at hr
      exact Except.noConfusion hr
    | ok s₁ =>
      rw [hap] at hr
      exact ih s₁ (applyOp_WF s op h s₁ hap) s' hr

theorem isSome_of_get_some (s : KvState) (key value : String)
    (h : s.get key = .ok (some value)) : (aget s.index key).isSome = true := by
  cases hk : aget s.index key with
  | none =>
    rw [KvState.get_eq_none_of_absent s key hk] at h
    exact Option.noConfusion (Except.ok.inj h)
  | some cp => rfl

theorem absent_of_get_none (s : KvState) (key : String) (hWF : WF s)
    (h : s.get key = .ok none) : (aget s.index key).isSome = false := by
  cases hk : aget s.index key with
  | none => rfl
  | some cp =>
    obtain ⟨v, hv⟩ := KvState.get_of_entryOk s key cp hk
      (hWF.2.2.2.2.2.2.1 (key, cp) (aget_mem _ _ _ hk))
    rw [hv] at h
    exact Option.noConfusion (Except.ok.inj h)

end KvsModel

namespace KvsModel

/-! ## The claims -/

/-- Opening an empty directory yields the fresh engine state. -/
theorem openStore_nil : openStore [] = .ok openedEmpty := rfl

/-- C1: for every sequence of successful `set`/`remove` operations executed
from a freshly opened engine (`open` on an empty directory), re-running `open`
on the directory the engine leaves behind yields an engine whose `get` returns
exactly the same result (`Some v` or `None`) as the live engine, for every
key — in particular for every key used in the sequence. -/
theorem C1_reopen_preserves_get (ops : List Op) (s : KvState)
    (h : openedEmpty.run ops = .ok s) :
    ∃ s', openStore s.files = .ok s' ∧ ∀ key, s'.get key = s.get key := by
  have hWF : WF s := run_preserves_WF ops openedEmpty (by decide) s h
  obtain ⟨s', h1, _, h3⟩ := openStore_of_WF s hWF
  exact ⟨s', h1, h3⟩

def c1Ops : List Op := [Op.set "a" "1", Op.set "b" "2", Op.remove "a", Op.set "b" "3"]

def c1State : KvState :=
  { files := [(1, ⟨[Command.Set "a" "1", Command.Set "b" "2",
                    Command.Remove "a", Command.Set "b" "3"], Tail.clean⟩)],
    index := [("b", ⟨1, 84, 31⟩)], uncompacted := 84,
    currentGen := 1, writerPos := 115, safePoint := 0 }

/-- Witness for C1 at a concrete operation sequence. -/
theorem C1_reopen_preserves_get_witness :
    ∃ s', openStore c1State.files = .ok s' ∧ ∀ key, s'.get key = c1State.get key :=
  C1_reopen_preserves_get c1Ops c1State (by decide)

/-- C2: on any well-formed engine state, `set(k, v)` succeeds and an
immediately following `get(k)` succeeds and returns `Some v`. -/
theorem C2_set_then_get (s : KvState) (key value : String) (h : WF s) :
    ∃ s', s.set key value = .ok s' ∧ s'.get key = .ok (some value) := by
  obtain ⟨s', h1, _, h3⟩ := set_spec s key value h
  refine ⟨s', h1, ?_⟩
  rw [h3 key, if_pos rfl]

/-- Witness for C2 on the freshly opened engine. -/
theorem C2_set_then_get_witness :
    WF openedEmpty ∧
    ∃ s', openedEmpty.set "a" "1" = .ok s' ∧ s'.get "a" = .ok (some "1") :=
  ⟨by decide, C2_set_then_get openedEmpty "a" "1" (by decide)⟩

/-- C3: after `set(k, v)` a `remove(k)` succeeds, then `get(k)` returns `None`
and a second `remove(k)` fails with `KeyNotFound`; in general `remove` of any
key absent from the index fails with `KeyNotFound`. -/
theorem C3_remove_then_key_not_found (s : KvState) (key value : String) (h : WF s) :
    (∃ s₁ s₂, s.set key value = .ok s₁ ∧ s₁.remove key = .ok s₂ ∧
      s₂.get key = .ok none ∧ s₂.remove key = .error KvsError.KeyNotFound) ∧
    ∀ k, aget s.index k = none → s.remove k = .error KvsError.KeyNotFound := by
  constructor
  · obtain ⟨s₁, h1, hWF1, hg1⟩ := set_spec s key value h
    have hsome : (aget s₁.index key).isSome = true :=
      isSome_of_get_some s₁ key value (by rw [hg1 key, if_pos rfl])
    obtain ⟨s₂, h2, hWF2, hg2⟩ := remove_spec s₁ key hWF1 hsome
    have hnone : s₂.get key = .ok none := by rw [hg2 key, if_pos rfl]
    exact ⟨s₁, s₂, h1, h2, hnone,
      remove_absent_eq s₂ key (absent_of_get_none s₂ key hWF2 hnone)⟩
  · intro k hk
    exact remove_absent_eq s k (by rw [hk]; rfl)

/-- Witness for C3 on the freshly opened engine. -/
theorem C3_remove_then_key_not_found_witness :
    WF openedEmpty ∧
    ((∃ s₁ s₂, openedEmpty.set "a" "1" = .ok s₁ ∧ s₁.remove "a" = .ok s₂ ∧
      s₂.get "a" = .ok none ∧ s₂.remove "a" = .error KvsError.KeyNotFound) ∧
    ∀ k, aget openedEmpty.index k = none →
      openedEmpty.remove k = .error KvsError.KeyNotFound) :=
  ⟨by decide, C3_remove_then_key_not_found openedEmpty "a" "1" (by decide)⟩

/-- C4: `set(k, v1); set(k, v2); get(k)` returns `Some v2` — the most recent
write wins. -/
theorem C4_overwrite_last_wins (s : KvState) (key v1 v2 : String) (h : WF s) :
    ∃ s₁ s₂, s.set key v1 = .ok s₁ ∧ s₁.set key v2 = .ok s₂ ∧
      s₂.get key = .ok (some v2) := by
  obtain ⟨s₁, h1, hWF1, _⟩ := set_spec s key v1 h
  obtain ⟨s₂, h2, _, hg2⟩ := set_spec s₁ key v2 hWF1
  refine ⟨s₁, s₂, h1, h2, ?_⟩
  rw [hg2 key, if_pos rfl]

/-- Witness for C4 on the freshly opened engine. -/
theorem C4_overwrite_last_wins_witness :
    WF openedEmpty ∧
    ∃ s₁ s₂, openedEmpty.set "a" "1" = .ok s₁ ∧ s₁.set "a" "2" = .ok s₂ ∧
      s₂.get "a" = .ok (some "2") :=
  ⟨by decide, C4_overwrite_last_wins openedEmpty "a" "1" "2" (by decide)⟩

/-- C5 counterexample: a directory whose single log file holds one complete
record followed by a truncated final record makes `open` FAIL with the
propagated deserialization (EOF) error — it does not succeed with the
already-decoded records, as the claim states. -/
theorem C5_truncated_tail_counterexample :
    openStore [(1, ⟨[Command.Set "a" "1"], Tail.truncated⟩)]
      = .error (KvsError.Serde SerdeErr.eofWhileParsing) := by decide

/-- C5 (amended): during recovery any record decode failure — a clean
truncation at end of file included — aborts `load` (`match cmd?` propagates
the error), so `open` fails with the `Serde` deserialization error; the code
has no clean-truncation tolerance and never distinguishes `CorruptLog` from
a truncated tail. -/
theorem C5_amended_open_fails_on_bad_tail (d : Dir) (g : Nat) (f : LogFile)
    (hmem : (g, f) ∈ d) (hbad : f.tail ≠ Tail.clean) :
    ∃ er, openStore d = .error (KvsError.Serde er) := by
  obtain ⟨er, her⟩ := loadGens_error_of_bad_tail (sortByGen d) [] 0
    ⟨(g, f), (mem_sortByGen _ _).mpr hmem, hbad⟩
  exact ⟨er, by simp only [openStore, her]⟩

/-- Witness for the amended C5. -/
theorem C5_amended_open_fails_on_bad_tail_witness :
    ∃ er, openStore [(1, ⟨[Command.Set "a" "1"], Tail.truncated⟩)]
      = .error (KvsError.Serde er) :=
  C5_amended_open_fails_on_bad_tail _ 1 ⟨[Command.Set "a" "1"], Tail.truncated⟩
    (List.mem_cons_self _ _) (by decide)

/-- C6: after a compaction completes, every key in the index points into the
compaction generation (no live key points into an earlier generation), `get`
returns the same value for every live key as immediately before, and the
uncompacted counter is reset to 0. -/
theorem C6_compaction_postconditions (s s' : KvState) (h : WF s)
    (hc : s.compact = .ok s') :
    (∀ e ∈ s'.index, e.2.gen = s.currentGen + 1) ∧
    (∀ key, s'.get key = s.get key) ∧
    s'.uncompacted = 0 := by
  obtain ⟨t, h1, _, h3, _, _, h6, _, h8⟩ := compact_spec s h
  rw [h1] at hc
  obtain rfl : t = s' := Except.ok.inj hc
  exact ⟨h6, h8, h3⟩

def c2State : KvState :=
  { files := [(1, ⟨[Command.Set "a" "1"], Tail.clean⟩)],
    index := [("a", ⟨1, 0, 31⟩)], uncompacted := 0, currentGen := 1,
    writerPos := 31, safePoint := 0 }

def c6State : KvState :=
  { files := [(2, ⟨[Command.Set "a" "1"], Tail.clean⟩), (3, emptyFile)],
    index := [("a", ⟨2, 0, 31⟩)], uncompacted := 0, currentGen := 3,
    writerPos := 0, safePoint := 2 }

/-- Witness for C6 on a one-key store. -/
theorem C6_compaction_postconditions_witness :
    (WF c2State ∧ c2State.compact = .ok c6State) ∧
    ((∀ e ∈ c6State.index, e.2.gen = c2State.currentGen + 1) ∧
    (∀ key, c6State.get key = c2State.get key) ∧
    c6State.uncompacted = 0) :=
  ⟨⟨by decide, by decide⟩,
    C6_compaction_postconditions c2State c6State (by decide) (by decide)⟩

/-- C7: `open` on a directory with no log files yields an empty index with the
writer at generation 1; on a non-empty directory (replayed in ascending
generation order by construction of `openStore`) the writer starts at
`max(gens) + 1`: strictly above every generation present, and exactly one more
than a generation present in the directory. -/
theorem C7_open_current_generation (d : Dir) (s : KvState)
    (h : openStore d = .ok s) :
    (d = [] → s.index = [] ∧ s.currentGen = 1) ∧
    (∀ e ∈ d, e.1 < s.currentGen) ∧
    (d ≠ [] → ∃ e ∈ d, e.1 = s.currentGen - 1) := by
  rcases hl : loadGens (sortByGen d) [] 0 with er | r
  · simp only [openStore, hl] at h
    exact Except.noConfusion h
  · simp only [openStore, hl] at h
    have hs := Except.ok.inj h
    have hcg : s.currentGen = ((sortByGen d).map Prod.fst).getLast?.getD 0 + 1 := by
      rw [← hs]
    refine ⟨?_, ?_, ?_⟩
    · intro hd0
      subst hd0
      have hr : r = ([], 0) := by
        have h0 : loadGens (sortByGen []) [] 0 = .ok ([], 0) := rfl
        rw [h0] at hl
        exact (Except.ok.inj hl).symm
      constructor
      · rw [← hs, hr]
      · rw [hcg]
        rfl
    · intro e he
      have h2 := pairwise_le_getLast (sortByGen d) (sortByGen_pairwise d) e
        ((mem_sortByGen e d).mpr he)
      omega
    · intro hne
      obtain ⟨a, ha⟩ := List.exists_mem_of_ne_nil d hne
      have hsne : sortByGen d ≠ [] := fun hcon => by
        have h3 := (mem_sortByGen a d).mpr ha
        rw [hcon] at h3
        exact absurd h3 (List.not_mem_nil a)
      obtain ⟨e, he, hfst⟩ := getLast_keys_mem (sortByGen d) hsne
      refine ⟨e, (mem_sortByGen e d).mp he, ?_⟩
      omega

def c7Dir : Dir := [(3, ⟨[Command.Set "a" "1"], Tail.clean⟩)]

def c7State : KvState :=
  { files := [(3, ⟨[Command.Set "a" "1"], Tail.clean⟩), (4, emptyFile)],
    index := [("a", ⟨3, 0, 31⟩)], uncompacted := 0, currentGen := 4,
    writerPos := 0, safePoint := 0 }

/-- Witness for C7 on a directory holding one generation-3 log file. -/
theorem C7_open_current_generation_witness :
    (c7Dir = [] → c7State.index = [] ∧ c7State.currentGen = 1) ∧
    (∀ e ∈ c7Dir, e.1 < c7State.currentGen) ∧
    (c7Dir ≠ [] → ∃ e ∈ c7Dir, e.1 = c7State.currentGen - 1) :=
  C7_open_current_generation c7Dir c7State (by decide)

/-- C8 (the code evaluated at the claim's scenario): once the pool is
destroyed — the queue's sender dropped, `recv` failing after the queue
drains — the `run_task` worker loop never exits, for any queue remainder and
any number of loop iterations: the `Err(_)` arm of the `match` only logs
"Thread exits because the thread pool is destroyed." and loops again, since
the source contains no `break` or `return`. The claimed worker exit does not
happen; the thread spins. -/
theorem C8_worker_loop_never_exits (q : List Unit) (fuel : Nat) :
    runTaskExitsWithin q fuel = false := by
  induction fuel generalizing q with
  | zero => rfl
  | succ n ih =>
    rw [runTaskExitsWithin]
    cases q with
    | nil => exact ih []
    | cons t rest => exact ih rest

/-- C9: a task panic inside a worker does not reduce the pool's live worker
count: during the unwind the worker's `TaskReceiver` is dropped with
`thread::panicking()` true, which spawns a replacement worker on the same
queue before the panicked thread dies. -/
theorem C9_panic_preserves_worker_count (p : PoolState) :
    (workerPanicStep p).workers = p.workers ∧
    (workerPanicStep p).queue = p.queue.drop 1 := by
  unfold workerPanicStep taskReceiverDrop
  simp

/-- C10: `get` leaves every piece of shared engine state unchanged — the
files on disk, the index, the uncompacted counter, the current generation,
the writer position and the safe point — while only the calling handle's
private reader cache may change. -/
theorem C10_get_leaves_shared_state_unchanged (s : KvState) (cache : ReaderCache)
    (key : String) : (s.getFull cache key).2.1 = s := by
  unfold KvState.getFull
  split
  · rfl
  · split
    · rfl
    · split <;> rfl

/-- The full `get` path returns the same result as the state-level `get`. -/
theorem getFull_fst (s : KvState) (cache : ReaderCache) (key : String) :
    (s.getFull cache key).1 = s.get key := by
  cases haget : aget s.index key with
  | none => simp only [KvState.getFull, KvState.get, haget]
  | some cp =>
    cases hf : aget s.files cp.gen with
    | none => simp only [KvState.getFull, KvState.get, readCommand, haget, hf]
    | some f =>
      cases hat : recordAt f cp.pos cp.len with
      | none => simp only [KvState.getFull, KvState.get, readCommand, haget, hf, hat]
      | some cmd =>
        cases cmd <;>
          simp only [KvState.getFull, KvState.get, readCommand, haget, hf, hat]

end KvsModel
